import Mathlib

/-!
A shallow embedding of the C-Lite lexer (`src/lexer.cpp`).

The lexer object of the source is a pair of an input buffer, which is never
assigned after construction, and a cursor `position`.  Every member function is
embedded as a function of the buffer and of the current cursor that returns the
token together with the new cursor.

* A `std::string` is embedded as a `List Char`, one `Char` per byte of the
  buffer; `input[position]` keeps its bounds proof, so every read of the
  embedding is in bounds.
* `size_t` arithmetic is embedded in `Nat`.  The subtractions of the source
  never wrap: `position - start` is taken after the cursor has moved forward
  from `start`, and `input.length() - 1` is evaluated inside the loop, where the
  buffer is not empty.
* The `while` loops of the lexer are embedded as recursive functions whose
  termination measure is the number of unread characters.  The `do ... while`
  loop of `main` is embedded with an explicit step budget.
-/

namespace CLite

/-! ## Character classes of `<cctype>` in the default "C" locale

The program never calls `setlocale`, so the classes are the ASCII ones; a byte
outside ASCII belongs to none of them. -/

/-- The `std::isspace` test: space, `\t`, `\n`, `\v`, `\f`, `\r`. -/
def isspace (c : Char) : Bool :=
  c.toNat == 32 || (9 ≤ c.toNat && c.toNat ≤ 13)

/-- The `std::isalpha` test: `A`..`Z` and `a`..`z`. -/
def isalpha (c : Char) : Bool :=
  (65 ≤ c.toNat && c.toNat ≤ 90) || (97 ≤ c.toNat && c.toNat ≤ 122)

/-- The `std::isdigit` test: `0`..`9`. -/
def isdigit (c : Char) : Bool :=
  48 ≤ c.toNat && c.toNat ≤ 57

/-- The `std::isalnum` test: alphabetic or digit. -/
def isalnum (c : Char) : Bool :=
  isalpha c || isdigit c

/-- The single quote character, written `'\''` in the source. -/
def quote : Char := Char.ofNat 39

/-! ## Tokens -/

/-- The enumeration `TokenType` of the source. -/
inductive TokenType where
  | IDENTIFIER
  | KEYWORD
  | INTEGER_LITERAL
  | FLOAT_LITERAL
  | CHAR_LITERAL
  | OPERATOR
  | PUNCTUATION
  | END_OF_INPUT
  | UNKNOWN
  deriving DecidableEq, Repr

/-- The structure `Token` of the source. -/
structure Token where
  type : TokenType
  value : List Char
  deriving DecidableEq, Repr

open TokenType

/-! ## The lexer -/

/-- The member `Lexer::keywords`. -/
def keywords : List (List Char) :=
  [['i', 'f'], ['e', 'l', 's', 'e'], ['w', 'h', 'i', 'l', 'e'],
   ['r', 'e', 't', 'u', 'r', 'n'], ['i', 'n', 't'], ['f', 'l', 'o', 'a', 't'],
   ['c', 'h', 'a', 'r']]

/-- The member `Lexer::isPunctuation`. -/
def isPunctuation (c : Char) : Bool :=
  c == '{' || c == '}' || c == ';' || c == ','

/-- The member `Lexer::isOperator`. -/
def isOperator (c : Char) : Bool :=
  c == '+' || c == '-' || c == '*' || c == '/' || c == '%' ||
  c == '=' || c == '&' || c == '|' || c == '!' || c == '<' || c == '>'

/-- The call `input.substr(pos, count)` of `std::string`, for `pos` within the
buffer: at most `count` characters starting at `pos`. -/
def substr (input : List Char) (pos count : Nat) : List Char :=
  (input.drop pos).take count

/-- The loop `while (position < input.length() && pred(input[position])) ++position;`
which occurs with `std::isalnum` and with `std::isdigit`; the result is the cursor
on exit. -/
def advanceWhile (pred : Char → Bool) (input : List Char) (position : Nat) : Nat :=
  if h : position < input.length then
    if pred input[position] then advanceWhile pred input (position + 1) else position
  else position
termination_by input.length - position

/-- The member `Lexer::readIdentifierOrKeyword`. -/
def readIdentifierOrKeyword (input : List Char) (position : Nat) : Token × Nat :=
  let start := position
  let position := advanceWhile isalnum input position
  let word := substr input start (position - start)
  if keywords.contains word then
    (⟨KEYWORD, word⟩, position)
  else
    (⟨IDENTIFIER, word⟩, position)

/-- The member `Lexer::readNumberLiteral`.  The flag `isFloat` of the source is
set exactly on the branch that consumes the dot, so each branch returns its own
token kind. -/
def readNumberLiteral (input : List Char) (position : Nat) : Token × Nat :=
  let start := position
  let position := advanceWhile isdigit input position
  if h : position < input.length then
    if input[position] = '.' then
      let position := advanceWhile isdigit input (position + 1)
      (⟨FLOAT_LITERAL, substr input start (position - start)⟩, position)
    else
      (⟨INTEGER_LITERAL, substr input start (position - start)⟩, position)
  else
    (⟨INTEGER_LITERAL, substr input start (position - start)⟩, position)

/-- The member `Lexer::readCharLiteral`. -/
def readCharLiteral (input : List Char) (position : Nat) : Token × Nat :=
  let start := position
  let position := position + 1
  if h : position < input.length then
    if input[position] ≠ quote then
      let position := position + 1
      if h2 : position < input.length then
        if input[position] = quote then
          (⟨CHAR_LITERAL, substr input (start + 1) 1⟩, position + 1)
        else
          (⟨UNKNOWN, []⟩, position)
      else
        (⟨UNKNOWN, []⟩, position)
    else
      (⟨UNKNOWN, []⟩, position)
  else
    (⟨UNKNOWN, []⟩, position)

/-- The member `Lexer::getNextToken`: the returned pair is the token and the
cursor after the call. -/
def getNextToken (input : List Char) (position : Nat) : Token × Nat :=
  if h : position < input.length then
    let current := input[position]
    if isspace current then
      getNextToken input (position + 1)
    else if isalpha current then
      readIdentifierOrKeyword input position
    else if isdigit current then
      readNumberLiteral input position
    else if current = quote then
      readCharLiteral input position
    else if isPunctuation current then
      (⟨PUNCTUATION, [current]⟩, position + 1)
    else if isOperator current then
      (⟨OPERATOR, [current]⟩, position + 1)
    else if position = input.length - 1 then
      (⟨END_OF_INPUT, []⟩, position)
    else
      (⟨UNKNOWN, [current]⟩, position + 1)
  else
    (⟨END_OF_INPUT, []⟩, position)
termination_by input.length - position

/-- The loop `do { token = lexer.getNextToken(); printToken(token); }
while (token.type != END_OF_INPUT);` of `main`, with a budget of `fuel`
iterations: the tokens printed, in order, and the cursor when the loop exits;
`none` when the budget runs out before the loop exits. -/
def mainLoop (input : List Char) : Nat → Nat → Option (List Token × Nat)
  | 0, _ => none
  | fuel + 1, position =>
    let r := getNextToken input position
    if r.1.type ≠ END_OF_INPUT then
      match mainLoop input fuel r.2 with
      | some (tokens, final) => some (r.1 :: tokens, final)
      | none => none
    else
      some ([r.1], r.2)

/-- The cursor of a fresh lexer after `n` calls of `getNextToken`. -/
def positionAfter (input : List Char) : Nat → Nat
  | 0 => 0
  | n + 1 => (getNextToken input (positionAfter input n)).2

/-- The token returned by call number `n` (counted from `0`) on a fresh lexer. -/
def tokenOfCall (input : List Char) (n : Nat) : Token :=
  (getNextToken input (positionAfter input n)).1



/-! ## Vocabulary of the statements -/

/-- Every position from `p` up to, and excluding, `q` holds a character of the
class `pred`. -/
def AllBetween (pred : Char → Bool) (input : List Char) (p q : Nat) : Prop :=
  ∀ i, p ≤ i → i < q → ∃ c, input[i]? = some c ∧ pred c = true

/-- The first non-whitespace character at or after the cursor `p` is `c`, at
position `q`. -/
def FirstNonSpace (input : List Char) (p q : Nat) (c : Char) : Prop :=
  p ≤ q ∧ AllBetween isspace input p q ∧ input[q]? = some c ∧ isspace c = false

/-- The positions from `p` up to `q` are a maximal run of the class `pred`: all
of them are in the class and the character at `q`, if any, is not. -/
def MaximalRun (pred : Char → Bool) (input : List Char) (p q : Nat) : Prop :=
  p ≤ q ∧ q ≤ input.length ∧ AllBetween pred input p q ∧
    ∀ c, input[q]? = some c → pred c = false

/-- A character that no branch of the dispatch recognises. -/
def unrecognized (c : Char) : Bool :=
  !isalpha c && !isdigit c && !(c == quote) && !isPunctuation c && !isOperator c

/-- The texts of the tokens other than `END_OF_INPUT`, concatenated in order. -/
def concatTexts (tokens : List Token) : List Char :=
  ((tokens.filter (fun t => t.type ≠ END_OF_INPUT)).map Token.value).flatten

/-- The input with its whitespace characters removed. -/
def removeWhitespace (input : List Char) : List Char :=
  input.filter (fun c => !isspace c)

/-- The texts of the tokens other than `END_OF_INPUT`, in order. -/
def tokenTexts (tokens : List Token) : List (List Char) :=
  (tokens.filter (fun t => t.type ≠ END_OF_INPUT)).map Token.value

/-- The texts joined with a single space between consecutive texts. -/
def joinWithSpace : List (List Char) → List Char
  | [] => []
  | [x] => x
  | x :: y :: rest => x ++ ' ' :: joinWithSpace (y :: rest)

/-- The shape of a token that is neither `END_OF_INPUT`, nor `CHAR_LITERAL`, nor
`UNKNOWN`: a word, a digit run, a digit run with a dot and a digit run, or a
single punctuation or operator character, with the matching kind. -/
def Lexeme (t : Token) : Prop :=
  (∃ c w, t.value = c :: w ∧ isalpha c = true ∧ (∀ a ∈ w, isalnum a = true) ∧
    t.type = if keywords.contains t.value then KEYWORD else IDENTIFIER) ∨
  (∃ d ds, (∀ a ∈ d :: ds, isdigit a = true) ∧ t = ⟨INTEGER_LITERAL, d :: ds⟩) ∨
  (∃ d ds es, (∀ a ∈ d :: ds, isdigit a = true) ∧ (∀ a ∈ es, isdigit a = true) ∧
    t = ⟨FLOAT_LITERAL, (d :: ds) ++ '.' :: es⟩) ∨
  (∃ c, isPunctuation c = true ∧ t = ⟨PUNCTUATION, [c]⟩) ∨
  (∃ c, isOperator c = true ∧ t = ⟨OPERATOR, [c]⟩)

/-! # Theorems -/

/-! ## The scanning loop -/

theorem advanceWhile_of_ge (pred : Char → Bool) (input : List Char) (p : Nat)
    (h : input.length ≤ p) : advanceWhile pred input p = p := by
  rw [advanceWhile, dif_neg (by omega)]

theorem advanceWhile_of_true (pred : Char → Bool) (input : List Char) (p : Nat) (c : Char)
    (hc : input[p]? = some c) (hp : pred c = true) :
    advanceWhile pred input p = advanceWhile pred input (p + 1) := by
  obtain ⟨h, rfl⟩ := List.getElem?_eq_some_iff.mp hc
  rw [advanceWhile, dif_pos h, if_pos hp]

theorem advanceWhile_of_false (pred : Char → Bool) (input : List Char) (p : Nat) (c : Char)
    (hc : input[p]? = some c) (hp : pred c = false) :
    advanceWhile pred input p = p := by
  obtain ⟨h, rfl⟩ := List.getElem?_eq_some_iff.mp hc
  rw [advanceWhile, dif_pos h, if_neg (by simp [hp])]

theorem advanceWhile_ge (pred : Char → Bool) (input : List Char) (p : Nat) :
    p ≤ advanceWhile pred input p := by
  induction p using advanceWhile.induct pred input with
  | case1 p h hp ih => rw [advanceWhile, dif_pos h, if_pos hp]; omega
  | case2 p h hp => rw [advanceWhile, dif_pos h, if_neg hp]
  | case3 p h => rw [advanceWhile, dif_neg h]

theorem advanceWhile_le (pred : Char → Bool) (input : List Char) (p : Nat)
    (hle : p ≤ input.length) : advanceWhile pred input p ≤ input.length := by
  induction p using advanceWhile.induct pred input with
  | case1 p h hp ih => rw [advanceWhile, dif_pos h, if_pos hp]; exact ih (by omega)
  | case2 p h hp => rw [advanceWhile, dif_pos h, if_neg hp]; exact hle
  | case3 p h => rw [advanceWhile, dif_neg h]; exact hle

theorem advanceWhile_all (pred : Char → Bool) (input : List Char) (p : Nat) :
    AllBetween pred input p (advanceWhile pred input p) := by
  induction p using advanceWhile.induct pred input with
  | case1 p h hp ih =>
    rw [advanceWhile, dif_pos h, if_pos hp]
    intro i h1 h2
    rcases Nat.eq_or_lt_of_le h1 with rfl | h3
    · exact ⟨input[p], List.getElem?_eq_getElem h, hp⟩
    · exact ih i h3 h2
  | case2 p h hp =>
    rw [advanceWhile, dif_pos h, if_neg hp]; intro i h1 h2; omega
  | case3 p h =>
    rw [advanceWhile, dif_neg h]; intro i h1 h2; omega

theorem advanceWhile_stop (pred : Char → Bool) (input : List Char) (p : Nat) (c : Char)
    (hc : input[advanceWhile pred input p]? = some c) : pred c = false := by
  induction p using advanceWhile.induct pred input with
  | case1 p h hp ih =>
    rw [advanceWhile, dif_pos h, if_pos hp] at hc; exact ih hc
  | case2 p h hp =>
    rw [advanceWhile, dif_pos h, if_neg hp] at hc
    obtain ⟨_, rfl⟩ := List.getElem?_eq_some_iff.mp hc
    simpa using hp
  | case3 p h =>
    rw [advanceWhile, dif_neg h] at hc
    obtain ⟨h2, _⟩ := List.getElem?_eq_some_iff.mp hc
    exact absurd h2 h

theorem advanceWhile_maximal (pred : Char → Bool) (input : List Char) (p : Nat)
    (hle : p ≤ input.length) : MaximalRun pred input p (advanceWhile pred input p) :=
  ⟨advanceWhile_ge pred input p, advanceWhile_le pred input p hle,
    advanceWhile_all pred input p, advanceWhile_stop pred input p⟩

/-- A maximal run from a position is unique. -/
theorem MaximalRun.unique {pred : Char → Bool} {input : List Char} {p q r : Nat}
    (hq : MaximalRun pred input p q) (hr : MaximalRun pred input p r) : q = r := by
  obtain ⟨hq1, hq2, hq3, hq4⟩ := hq
  obtain ⟨hr1, hr2, hr3, hr4⟩ := hr
  rcases Nat.lt_trichotomy q r with h | h | h
  · obtain ⟨c, hc, hp⟩ := hr3 q hq1 h
    rw [hq4 c hc] at hp; exact absurd hp (by simp)
  · exact h
  · obtain ⟨c, hc, hp⟩ := hq3 r hr1 h
    rw [hr4 c hc] at hp; exact absurd hp (by simp)

/-! ## One call of `getNextToken` -/

theorem getNextToken_of_ge (input : List Char) (p : Nat) (h : input.length ≤ p) :
    getNextToken input p = (⟨END_OF_INPUT, []⟩, p) := by
  rw [getNextToken, dif_neg (by omega)]

theorem getNextToken_of_space (input : List Char) (p : Nat) (c : Char)
    (hc : input[p]? = some c) (hs : isspace c = true) :
    getNextToken input p = getNextToken input (p + 1) := by
  obtain ⟨h, rfl⟩ := List.getElem?_eq_some_iff.mp hc
  rw [getNextToken, dif_pos h]
  simp only [hs, if_true]

theorem getNextToken_of_nonspace (input : List Char) (p : Nat) (c : Char)
    (hc : input[p]? = some c) (hs : isspace c = false) :
    getNextToken input p =
      if isalpha c then readIdentifierOrKeyword input p
      else if isdigit c then readNumberLiteral input p
      else if c = quote then readCharLiteral input p
      else if isPunctuation c then (⟨PUNCTUATION, [c]⟩, p + 1)
      else if isOperator c then (⟨OPERATOR, [c]⟩, p + 1)
      else if p = input.length - 1 then (⟨END_OF_INPUT, []⟩, p)
      else (⟨UNKNOWN, [c]⟩, p + 1) := by
  obtain ⟨h, rfl⟩ := List.getElem?_eq_some_iff.mp hc
  rw [getNextToken, dif_pos h]
  simp only [hs, Bool.false_eq_true, if_false]

theorem getNextToken_skip (input : List Char) (p q : Nat) (hpq : p ≤ q)
    (hs : AllBetween isspace input p q) :
    getNextToken input p = getNextToken input q := by
  induction q, hpq using Nat.le_induction with
  | base => rfl
  | succ q hpq ih =>
    obtain ⟨c, hc, hsp⟩ := hs q hpq (Nat.lt_succ_self q)
    rw [ih (fun i h1 h2 => hs i h1 (by omega)), getNextToken_of_space input q c hc hsp]

theorem getNextToken_firstNonSpace (input : List Char) (p q : Nat) (c : Char)
    (h : FirstNonSpace input p q c) :
    getNextToken input p =
      if isalpha c then readIdentifierOrKeyword input q
      else if isdigit c then readNumberLiteral input q
      else if c = quote then readCharLiteral input q
      else if isPunctuation c then (⟨PUNCTUATION, [c]⟩, q + 1)
      else if isOperator c then (⟨OPERATOR, [c]⟩, q + 1)
      else if q = input.length - 1 then (⟨END_OF_INPUT, []⟩, q)
      else (⟨UNKNOWN, [c]⟩, q + 1) := by
  rw [getNextToken_skip input p q h.1 h.2.1, getNextToken_of_nonspace input q c h.2.2.1 h.2.2.2]

/-- From any cursor, either only whitespace is left or there is a first
non-whitespace character. -/
theorem space_or_firstNonSpace (input : List Char) (p : Nat) :
    AllBetween isspace input p input.length ∨ ∃ q c, FirstNonSpace input p q c := by
  induction p using getNextToken.induct input with
  | case1 p h c hs ih =>
    rcases ih with ih | ⟨q, d, h1, h2, h3⟩
    · left
      intro i h1 h2
      rcases Nat.eq_or_lt_of_le h1 with rfl | h3
      · exact ⟨input[p], List.getElem?_eq_getElem h, hs⟩
      · exact ih i h3 h2
    · right
      refine ⟨q, _, by omega, ?_, h3⟩
      intro i h4 h5
      rcases Nat.eq_or_lt_of_le h4 with rfl | h6
      · exact ⟨input[p], List.getElem?_eq_getElem h, hs⟩
      · exact h2 i h6 h5
  | case9 p h => left; intro i h1 h2; omega
  | case7 h c hs =>
    right
    exact ⟨_, c, le_refl _, fun i h1 h2 => by omega, List.getElem?_eq_getElem h, by simpa using hs⟩
  | case2 p h c hs | case3 p h c hs | case4 p h c hs | case5 p h c hs | case6 p h c hs
  | case8 p h c hs =>
    right
    exact ⟨p, c, le_refl p, fun i h1 h2 => by omega, List.getElem?_eq_getElem h, by simpa using hs⟩


/-! ## The three readers -/

theorem FirstNonSpace.lt_length {input : List Char} {p q : Nat} {c : Char}
    (h : FirstNonSpace input p q c) : q < input.length :=
  (List.getElem?_eq_some_iff.mp h.2.2.1).1

theorem isalnum_of_isalpha {c : Char} (h : isalpha c = true) : isalnum c = true := by
  simp [isalnum, h]

theorem isalnum_of_isdigit {c : Char} (h : isdigit c = true) : isalnum c = true := by
  simp [isalnum, h]

theorem advanceWhile_gt (pred : Char → Bool) (input : List Char) (p : Nat) (c : Char)
    (hc : input[p]? = some c) (hp : pred c = true) : p < advanceWhile pred input p := by
  rw [advanceWhile_of_true pred input p c hc hp]
  exact advanceWhile_ge pred input (p + 1)

theorem readIdentifierOrKeyword_eq (input : List Char) (p : Nat) :
    readIdentifierOrKeyword input p =
      (⟨if keywords.contains (substr input p (advanceWhile isalnum input p - p)) then KEYWORD
          else IDENTIFIER, substr input p (advanceWhile isalnum input p - p)⟩,
        advanceWhile isalnum input p) := by
  unfold readIdentifierOrKeyword
  simp only []
  split <;> rfl

theorem readNumberLiteral_of_dot (input : List Char) (p : Nat)
    (h : input[advanceWhile isdigit input p]? = some '.') :
    readNumberLiteral input p =
      (⟨FLOAT_LITERAL, substr input p
          (advanceWhile isdigit input (advanceWhile isdigit input p + 1) - p)⟩,
        advanceWhile isdigit input (advanceWhile isdigit input p + 1)) := by
  obtain ⟨h1, h2⟩ := List.getElem?_eq_some_iff.mp h
  unfold readNumberLiteral
  simp only [dif_pos h1, h2, if_true]

theorem readNumberLiteral_of_not_dot (input : List Char) (p : Nat)
    (h : input[advanceWhile isdigit input p]? ≠ some '.') :
    readNumberLiteral input p =
      (⟨INTEGER_LITERAL, substr input p (advanceWhile isdigit input p - p)⟩,
        advanceWhile isdigit input p) := by
  unfold readNumberLiteral
  simp only []
  split
  · rename_i h1
    rw [List.getElem?_eq_getElem h1] at h
    rw [if_neg (fun h2 => h (by rw [h2]))]
  · rfl

theorem readNumberLiteral_bounds (input : List Char) (p : Nat) (c : Char)
    (hc : input[p]? = some c) (hd : isdigit c = true) :
    p < (readNumberLiteral input p).2 ∧ (readNumberLiteral input p).2 ≤ input.length ∧
      (readNumberLiteral input p).1.type ≠ END_OF_INPUT := by
  have hlt : p < input.length := (List.getElem?_eq_some_iff.mp hc).1
  have h1 := advanceWhile_gt isdigit input p c hc hd
  have h2 := advanceWhile_le isdigit input p (Nat.le_of_lt hlt)
  by_cases h : input[advanceWhile isdigit input p]? = some '.'
  · rw [readNumberLiteral_of_dot input p h]
    have h3 : advanceWhile isdigit input p < input.length :=
      (List.getElem?_eq_some_iff.mp h).1
    have h4 := advanceWhile_ge isdigit input (advanceWhile isdigit input p + 1)
    have h5 := advanceWhile_le isdigit input (advanceWhile isdigit input p + 1) h3
    refine ⟨by simp only []; omega, h5, by simp⟩
  · rw [readNumberLiteral_of_not_dot input p h]
    exact ⟨h1, h2, by simp⟩

theorem readIdentifierOrKeyword_bounds (input : List Char) (p : Nat) (c : Char)
    (hc : input[p]? = some c) (ha : isalpha c = true) :
    p < (readIdentifierOrKeyword input p).2 ∧
      (readIdentifierOrKeyword input p).2 ≤ input.length ∧
      (readIdentifierOrKeyword input p).1.type ≠ END_OF_INPUT := by
  have hlt : p < input.length := (List.getElem?_eq_some_iff.mp hc).1
  rw [readIdentifierOrKeyword_eq]
  refine ⟨advanceWhile_gt isalnum input p c hc (isalnum_of_isalpha ha),
    advanceWhile_le isalnum input p (Nat.le_of_lt hlt), ?_⟩
  simp only []
  split <;> simp

/-- The outcome of `readCharLiteral` at an opening quote, by the two characters
that follow it. -/
theorem readCharLiteral_eq (input : List Char) (p : Nat) :
    readCharLiteral input p =
      match input[p + 1]?, input[p + 2]? with
      | some c, some d =>
        if c = quote then (⟨UNKNOWN, []⟩, p + 1)
        else if d = quote then (⟨CHAR_LITERAL, [c]⟩, p + 3)
        else (⟨UNKNOWN, []⟩, p + 2)
      | some c, none => if c = quote then (⟨UNKNOWN, []⟩, p + 1) else (⟨UNKNOWN, []⟩, p + 2)
      | none, _ => (⟨UNKNOWN, []⟩, p + 1) := by
  unfold readCharLiteral
  simp only []
  by_cases h1 : p + 1 < input.length
  · rw [dif_pos h1, List.getElem?_eq_getElem h1]
    have hsub : substr input (p + 1) 1 = [input[p + 1]] := by
      unfold substr
      exact List.take_one_drop_eq_of_lt_length h1
    by_cases h2 : p + 1 + 1 < input.length
    · have h2b : p + 2 < input.length := h2
      rw [List.getElem?_eq_getElem h2b]
      simp only [dif_pos h2, hsub]
      by_cases h3 : input[p + 1] = quote
      · simp [h3]
      · by_cases h4 : input[p + 2] = quote
        · have h4b : input[p + 1 + 1] = quote := h4
          simp [h3, h4, h4b]
        · have h4b : ¬ input[p + 1 + 1] = quote := h4
          simp [h3, h4, h4b]
    · have h2b : input[p + 2]? = none := List.getElem?_eq_none (by omega)
      rw [h2b]
      simp only [dif_neg h2]
      by_cases h3 : input[p + 1] = quote
      · simp [h3]
      · simp [h3]
  · rw [dif_neg h1, List.getElem?_eq_none (by omega)]

theorem readCharLiteral_bounds (input : List Char) (p : Nat) (hlt : p < input.length) :
    p < (readCharLiteral input p).2 ∧ (readCharLiteral input p).2 ≤ input.length ∧
      (readCharLiteral input p).1.type ≠ END_OF_INPUT := by
  rw [readCharLiteral_eq]
  rcases h1 : input[p + 1]? with _ | c
  · simp only []; exact ⟨by omega, by omega, by simp⟩
  · have hl1 : p + 1 < input.length := (List.getElem?_eq_some_iff.mp h1).1
    rcases h2 : input[p + 2]? with _ | d
    · have hl2 : input.length ≤ p + 2 := by
        by_contra hcon
        rw [List.getElem?_eq_getElem (by omega)] at h2
        exact absurd h2 (by simp)
      simp only []
      split <;> exact ⟨by simp only []; omega, by simp only []; omega, by simp⟩
    · have hl2 : p + 2 < input.length := (List.getElem?_eq_some_iff.mp h2).1
      simp only []
      split
      · exact ⟨by simp only []; omega, by simp only []; omega, by simp⟩
      · split <;> exact ⟨by simp only []; omega, by simp only []; omega, by simp⟩

/-! ## Progress of one call -/

/-- After the whitespace, a call either stops at an unrecognized last character
without consuming it, or consumes at least one character and stays within the
buffer. -/
theorem getNextToken_progress (input : List Char) (p q : Nat) (c : Char)
    (h : FirstNonSpace input p q c) :
    ((getNextToken input p).1.type ≠ END_OF_INPUT ∧ q < (getNextToken input p).2 ∧
        (getNextToken input p).2 ≤ input.length) ∨
      (getNextToken input p = (⟨END_OF_INPUT, []⟩, q) ∧ unrecognized c = true ∧
        q + 1 = input.length) := by
  have hlt := h.lt_length
  rw [getNextToken_firstNonSpace input p q c h]
  by_cases ha : isalpha c = true
  · rw [if_pos ha]; left
    obtain ⟨h1, h2, h3⟩ := readIdentifierOrKeyword_bounds input q c h.2.2.1 ha
    exact ⟨h3, h1, h2⟩
  rw [if_neg ha]
  by_cases hd : isdigit c = true
  · rw [if_pos hd]; left
    obtain ⟨h1, h2, h3⟩ := readNumberLiteral_bounds input q c h.2.2.1 hd
    exact ⟨h3, h1, h2⟩
  rw [if_neg hd]
  by_cases hq : c = quote
  · rw [if_pos hq]; left
    obtain ⟨h1, h2, h3⟩ := readCharLiteral_bounds input q hlt
    exact ⟨h3, h1, h2⟩
  rw [if_neg hq]
  by_cases hp : isPunctuation c = true
  · rw [if_pos hp]; left; exact ⟨by simp, by simp, hlt⟩
  rw [if_neg hp]
  by_cases ho : isOperator c = true
  · rw [if_pos ho]; left; exact ⟨by simp, by simp, hlt⟩
  rw [if_neg ho]
  by_cases hl : q = input.length - 1
  · rw [if_pos hl]; right
    refine ⟨rfl, ?_, by omega⟩
    simp [unrecognized, ha, hd, hq, hp, ho]
  · rw [if_neg hl]; left; exact ⟨by simp, by simp, hlt⟩

theorem getNextToken_of_allspace (input : List Char) (p : Nat) (hle : p ≤ input.length)
    (h : AllBetween isspace input p input.length) :
    getNextToken input p = (⟨END_OF_INPUT, []⟩, input.length) := by
  rw [getNextToken_skip input p input.length hle h, getNextToken_of_ge input _ (le_refl _)]

theorem getNextToken_position_ge (input : List Char) (p : Nat) :
    p ≤ (getNextToken input p).2 := by
  by_cases hle : p ≤ input.length
  · rcases space_or_firstNonSpace input p with h | ⟨q, c, h⟩
    · rw [getNextToken_of_allspace input p hle h]; exact hle
    · have hpq := h.1
      rcases getNextToken_progress input p q c h with ⟨_, h2, _⟩ | ⟨h1, _, _⟩
      · omega
      · rw [h1]; exact hpq
  · rw [getNextToken_of_ge input p (by omega)]

theorem getNextToken_position_le (input : List Char) (p : Nat) (hle : p ≤ input.length) :
    (getNextToken input p).2 ≤ input.length := by
  rcases space_or_firstNonSpace input p with h | ⟨q, c, h⟩
  · rw [getNextToken_of_allspace input p hle h]
  · rcases getNextToken_progress input p q c h with ⟨_, _, h3⟩ | ⟨h1, _, h3⟩
    · exact h3
    · rw [h1]; simp only []; omega

theorem getNextToken_position_gt (input : List Char) (p : Nat)
    (hne : (getNextToken input p).1.type ≠ END_OF_INPUT) :
    p < (getNextToken input p).2 := by
  by_cases hle : p ≤ input.length
  · rcases space_or_firstNonSpace input p with h | ⟨q, c, h⟩
    · rw [getNextToken_of_allspace input p hle h] at hne; exact absurd rfl hne
    · have hpq := h.1
      rcases getNextToken_progress input p q c h with ⟨_, h2, _⟩ | ⟨h1, _, _⟩
      · omega
      · rw [h1] at hne; exact absurd rfl hne
  · rw [getNextToken_of_ge input p (by omega)] at hne; exact absurd rfl hne


/-- An `END_OF_INPUT` token always has the empty text. -/
theorem getNextToken_eoi_value (input : List Char) (p : Nat)
    (he : (getNextToken input p).1.type = END_OF_INPUT) :
    (getNextToken input p).1 = ⟨END_OF_INPUT, []⟩ := by
  by_cases hle : p ≤ input.length
  · rcases space_or_firstNonSpace input p with h | ⟨q, c, h⟩
    · rw [getNextToken_of_allspace input p hle h]
    · rcases getNextToken_progress input p q c h with ⟨h1, _, _⟩ | ⟨h1, _, _⟩
      · exact absurd he h1
      · rw [h1]
  · rw [getNextToken_of_ge input p (by omega)]

/-! ## The driver loop -/

theorem mainLoop_succ (input : List Char) (fuel p : Nat) :
    mainLoop input (fuel + 1) p =
      if (getNextToken input p).1.type ≠ END_OF_INPUT then
        match mainLoop input fuel (getNextToken input p).2 with
        | some (tokens, final) => some ((getNextToken input p).1 :: tokens, final)
        | none => none
      else some ([(getNextToken input p).1], (getNextToken input p).2) := rfl

/-- A larger budget does not change the outcome of a run that exits. -/
theorem mainLoop_mono (input : List Char) (fuel k p : Nat) (r : List Token × Nat)
    (h : mainLoop input fuel p = some r) : mainLoop input (fuel + k) p = some r := by
  induction fuel generalizing p r with
  | zero => simp [mainLoop] at h
  | succ fuel ih =>
    rw [show fuel + 1 + k = (fuel + k) + 1 by omega, mainLoop_succ]
    rw [mainLoop_succ] at h
    by_cases hne : (getNextToken input p).1.type ≠ END_OF_INPUT
    · rw [if_pos hne] at h ⊢
      rcases hm : mainLoop input fuel (getNextToken input p).2 with _ | ⟨tokens, final⟩
      · rw [hm] at h; exact absurd h (by simp)
      · rw [hm] at h
        rw [ih _ _ hm]
        exact h
    · rw [if_neg hne] at h ⊢
      exact h

/-- The driver loop exits within `input.length - p + 1` iterations from a cursor
`p` inside the buffer; the printed tokens end with the only `END_OF_INPUT`
token, and the final cursor is inside the buffer. -/
theorem mainLoop_exits (input : List Char) (fuel p : Nat) (hle : p ≤ input.length)
    (hfuel : input.length - p < fuel) :
    ∃ tokens final, mainLoop input fuel p = some (tokens, final) ∧
      tokens.length ≤ input.length - p + 1 ∧
      tokens.getLast? = some ⟨END_OF_INPUT, []⟩ ∧
      (∀ t ∈ tokens.dropLast, t.type ≠ END_OF_INPUT) ∧
      p ≤ final ∧ final ≤ input.length := by
  induction fuel generalizing p with
  | zero => omega
  | succ fuel ih =>
    rw [mainLoop_succ]
    by_cases hne : (getNextToken input p).1.type ≠ END_OF_INPUT
    · rw [if_pos hne]
      have h1 := getNextToken_position_gt input p hne
      have h2 := getNextToken_position_le input p hle
      obtain ⟨tokens, final, hm, hlen, hlast, hdrop, hp1, hp2⟩ :=
        ih (getNextToken input p).2 h2 (by omega)
      rw [hm]
      have hne2 : tokens ≠ [] := by
        intro h0; rw [h0] at hlast; simp at hlast
      obtain ⟨t, ts, rfl⟩ := List.exists_cons_of_ne_nil hne2
      refine ⟨_, final, rfl, ?_, ?_, ?_, by omega, hp2⟩
      · simp only [List.length_cons] at hlen ⊢; omega
      · rw [List.getLast?_cons_cons]; exact hlast
      · intro u hu
        rw [List.dropLast_cons₂] at hu
        rcases List.mem_cons.mp hu with rfl | hu
        · exact hne
        · exact hdrop u hu
    · rw [if_neg hne]
      have he : (getNextToken input p).1.type = END_OF_INPUT := by
        by_contra hcon; exact hne hcon
      refine ⟨_, _, rfl, by simp, ?_, by simp, getNextToken_position_ge input p,
        getNextToken_position_le input p hle⟩
      rw [getNextToken_eoi_value input p he]; rfl


/-! ## Character classes are disjoint from whitespace -/

theorem isspace_false_of_isalnum {c : Char} (h : isalnum c = true) : isspace c = false := by
  simp only [isalnum, isalpha, isdigit, Bool.or_eq_true, Bool.and_eq_true,
    decide_eq_true_eq] at h
  simp only [isspace, Bool.or_eq_false_iff, Bool.and_eq_false_imp, beq_eq_false_iff_ne,
    decide_eq_true_eq, decide_eq_false_iff_not]
  omega

theorem isspace_false_of_isdigit {c : Char} (h : isdigit c = true) : isspace c = false :=
  isspace_false_of_isalnum (isalnum_of_isdigit h)

theorem isspace_dot : isspace '.' = false := by decide

/-! ## Ranges of the buffer -/

theorem AllBetween.imp {pred pred2 : Char → Bool} {input : List Char} {p q : Nat}
    (h : AllBetween pred input p q) (himp : ∀ c, pred c = true → pred2 c = true) :
    AllBetween pred2 input p q := by
  intro i h1 h2
  obtain ⟨c, hc, hp⟩ := h i h1 h2
  exact ⟨c, hc, himp c hp⟩

theorem AllBetween.append {pred : Char → Bool} {input : List Char} {p q r : Nat}
    (h1 : AllBetween pred input p q) (h2 : AllBetween pred input q r) :
    AllBetween pred input p r := by
  intro i hi1 hi2
  by_cases h : i < q
  · exact h1 i hi1 h
  · exact h2 i (by omega) hi2

theorem AllBetween.single {pred : Char → Bool} {input : List Char} {q : Nat} {c : Char}
    (hc : input[q]? = some c) (hp : pred c = true) : AllBetween pred input q (q + 1) := by
  intro i h1 h2
  have : i = q := by omega
  subst this
  exact ⟨c, hc, hp⟩

theorem substr_append_drop (input : List Char) (p e : Nat) (h : p ≤ e) :
    substr input p (e - p) ++ input.drop e = input.drop p := by
  have h1 := List.take_append_drop (e - p) (input.drop p)
  rw [List.drop_drop, show p + (e - p) = e by omega] at h1
  exact h1

theorem mem_substr {input : List Char} {p n : Nat} {a : Char} (h : a ∈ substr input p n) :
    ∃ i, p ≤ i ∧ i < p + n ∧ input[i]? = some a := by
  unfold substr at h
  obtain ⟨k, hk, hget⟩ := List.mem_iff_getElem.mp h
  have hk2 : k < n := by
    have := List.length_take_le n (input.drop p); omega
  refine ⟨p + k, by omega, by omega, ?_⟩
  rw [List.getElem_take, List.getElem_drop] at hget
  rw [← hget]
  exact List.getElem?_eq_getElem _

theorem substr_one (input : List Char) (q : Nat) (c : Char) (hc : input[q]? = some c) :
    substr input q 1 = [c] := by
  obtain ⟨h, rfl⟩ := List.getElem?_eq_some_iff.mp hc
  exact List.take_one_drop_eq_of_lt_length h

theorem removeWhitespace_append (xs ys : List Char) :
    removeWhitespace (xs ++ ys) = removeWhitespace xs ++ removeWhitespace ys := by
  simp [removeWhitespace]

theorem removeWhitespace_substr (input : List Char) (p e : Nat)
    (h : AllBetween (fun c => !isspace c) input p e) :
    removeWhitespace (substr input p (e - p)) = substr input p (e - p) := by
  unfold removeWhitespace
  rw [List.filter_eq_self]
  intro a ha
  obtain ⟨i, h1, h2, h3⟩ := mem_substr ha
  by_cases hpe : p ≤ e
  · obtain ⟨c, hc, hp⟩ := h i h1 (by omega)
    rw [h3] at hc
    cases hc
    exact hp
  · have : e - p = 0 := by omega
    rw [this] at h2; omega

theorem removeWhitespace_drop_skip (input : List Char) (p q : Nat) (hpq : p ≤ q)
    (hs : AllBetween isspace input p q) :
    removeWhitespace (input.drop p) = removeWhitespace (input.drop q) := by
  induction q, hpq using Nat.le_induction with
  | base => rfl
  | succ q hpq ih =>
    obtain ⟨c, hc, hsp⟩ := hs q hpq (Nat.lt_succ_self q)
    obtain ⟨hlt, rfl⟩ := List.getElem?_eq_some_iff.mp hc
    rw [ih (fun i h1 h2 => hs i h1 (by omega)), List.drop_eq_getElem_cons hlt]
    unfold removeWhitespace
    rw [List.filter_cons_of_neg (by simp [hsp])]

/-! ## The text of a token and the range it was read from -/

/-- Away from the character-literal branch, the text of a token other than
`END_OF_INPUT` is the range of the buffer from the first non-whitespace
character to the new cursor, and that range holds no whitespace. -/
theorem getNextToken_text (input : List Char) (p q : Nat) (c : Char)
    (h : FirstNonSpace input p q c) (hq : c ≠ quote)
    (hne : (getNextToken input p).1.type ≠ END_OF_INPUT) :
    (getNextToken input p).1.value = substr input q ((getNextToken input p).2 - q) ∧
      AllBetween (fun c => !isspace c) input q (getNextToken input p).2 := by
  have hlt := h.lt_length
  have hcq := h.2.2.1
  have hone : AllBetween (fun c => !isspace c) input q (q + 1) :=
    AllBetween.single hcq (by simp [h.2.2.2])
  have hsub : substr input q (q + 1 - q) = [c] := by
    rw [show q + 1 - q = 1 by omega]; exact substr_one input q c hcq
  rw [getNextToken_firstNonSpace input p q c h] at hne ⊢
  by_cases ha : isalpha c = true
  · rw [if_pos ha, readIdentifierOrKeyword_eq]
    refine ⟨rfl, (advanceWhile_all isalnum input q).imp ?_⟩
    intro d hd; simp [isspace_false_of_isalnum hd]
  rw [if_neg ha] at hne ⊢
  by_cases hd : isdigit c = true
  · rw [if_pos hd]
    have hrun : AllBetween (fun c => !isspace c) input q (advanceWhile isdigit input q) :=
      (advanceWhile_all isdigit input q).imp
        (fun d hd => by simp [isspace_false_of_isdigit hd])
    by_cases hdot : input[advanceWhile isdigit input q]? = some '.'
    · rw [readNumberLiteral_of_dot input q hdot]
      refine ⟨rfl, hrun.append ((AllBetween.single hdot (by simp [isspace_dot])).append ?_)⟩
      exact (advanceWhile_all isdigit input _).imp
        (fun d hd => by simp [isspace_false_of_isdigit hd])
    · rw [readNumberLiteral_of_not_dot input q hdot]
      exact ⟨rfl, hrun⟩
  rw [if_neg hd, if_neg hq] at hne ⊢
  by_cases hp : isPunctuation c = true
  · rw [if_pos hp]; exact ⟨hsub.symm, hone⟩
  rw [if_neg hp] at hne ⊢
  by_cases ho : isOperator c = true
  · rw [if_pos ho]; exact ⟨hsub.symm, hone⟩
  rw [if_neg ho] at hne ⊢
  by_cases hl : q = input.length - 1
  · rw [if_pos hl] at hne; exact absurd rfl hne
  · rw [if_neg hl]; exact ⟨hsub.symm, hone⟩


/-! ## Coverage of the input by the token texts -/

theorem getNextToken_covers (input : List Char) (p q : Nat) (c : Char)
    (h : FirstNonSpace input p q c) (hq : c ≠ quote)
    (hne : (getNextToken input p).1.type ≠ END_OF_INPUT) :
    removeWhitespace (input.drop p) =
      (getNextToken input p).1.value ++ removeWhitespace (input.drop (getNextToken input p).2) := by
  obtain ⟨htext, hall⟩ := getNextToken_text input p q c h hq hne
  have hge : q ≤ (getNextToken input p).2 := by
    rcases getNextToken_progress input p q c h with ⟨_, h2, _⟩ | ⟨h1, _, _⟩
    · omega
    · rw [h1] at hne; exact absurd rfl hne
  rw [removeWhitespace_drop_skip input p q h.1 h.2.1,
    ← substr_append_drop input q _ hge, removeWhitespace_append,
    removeWhitespace_substr input q _ hall, ← htext]

theorem removeWhitespace_of_allspace (input : List Char) (p : Nat) (hle : p ≤ input.length)
    (h : AllBetween isspace input p input.length) :
    removeWhitespace (input.drop p) = [] := by
  rw [removeWhitespace_drop_skip input p input.length hle h, List.drop_length]
  rfl

theorem concatTexts_cons_of_ne (t : Token) (ts : List Token) (h : t.type ≠ END_OF_INPUT) :
    concatTexts (t :: ts) = t.value ++ concatTexts ts := by
  simp [concatTexts, h]

theorem concatTexts_single_eoi (t : Token) (h : t.type = END_OF_INPUT) :
    concatTexts [t] = [] := by
  simp [concatTexts, h]

theorem getLast?_eq_of_succ_eq_length (input : List Char) (q : Nat) (c : Char)
    (hc : input[q]? = some c) (hq : q + 1 = input.length) : input.getLast? = some c := by
  rw [List.getLast?_eq_getElem?, ← hc]
  congr 1
  omega

/-- On an input without a single quote whose last character is whitespace or
recognised, a run of the driver loop from a cursor `p` inside the buffer prints
tokens whose texts concatenate to the unread input without its whitespace, and
exits with the cursor at the end of the buffer. -/
theorem mainLoop_covers (input : List Char) (hq : ∀ c ∈ input, c ≠ quote)
    (hlast : ∀ c, input.getLast? = some c → isspace c = true ∨ unrecognized c = false)
    (fuel p : Nat) (hle : p ≤ input.length) (tokens : List Token) (final : Nat)
    (hrun : mainLoop input fuel p = some (tokens, final)) :
    concatTexts tokens = removeWhitespace (input.drop p) ∧ final = input.length := by
  induction fuel generalizing p tokens final with
  | zero => simp [mainLoop] at hrun
  | succ fuel ih =>
    rw [mainLoop_succ] at hrun
    by_cases hne : (getNextToken input p).1.type ≠ END_OF_INPUT
    · rw [if_pos hne] at hrun
      rcases hm : mainLoop input fuel (getNextToken input p).2 with _ | ⟨ts, fin⟩
      · rw [hm] at hrun; exact absurd hrun (by simp)
      · rw [hm] at hrun
        simp only [Option.some.injEq, Prod.mk.injEq] at hrun
        obtain ⟨rfl, rfl⟩ := hrun
        obtain ⟨h1, h2⟩ := ih _ (getNextToken_position_le input p hle) ts fin hm
        refine ⟨?_, h2⟩
        rw [concatTexts_cons_of_ne _ _ hne, h1]
        rcases space_or_firstNonSpace input p with h | ⟨q, c, h⟩
        · rw [getNextToken_of_allspace input p hle h] at hne; exact absurd rfl hne
        · have hmem : c ∈ input := List.getElem?_mem h.2.2.1
          exact (getNextToken_covers input p q c h (hq c hmem) hne).symm
    · rw [if_neg hne] at hrun
      have he : (getNextToken input p).1.type = END_OF_INPUT := by
        by_contra hcon; exact hne hcon
      simp only [Option.some.injEq, Prod.mk.injEq] at hrun
      obtain ⟨rfl, rfl⟩ := hrun
      rw [concatTexts_single_eoi _ he]
      rcases space_or_firstNonSpace input p with h | ⟨q, c, h⟩
      · rw [getNextToken_of_allspace input p hle h,
          removeWhitespace_of_allspace input p hle h]
        exact ⟨rfl, rfl⟩
      · rcases getNextToken_progress input p q c h with ⟨h1, _, _⟩ | ⟨_, h2, h3⟩
        · exact absurd he h1
        · rcases hlast c (getLast?_eq_of_succ_eq_length input q c h.2.2.1 h3) with h4 | h4
          · rw [h.2.2.2] at h4; exact absurd h4 (by simp)
          · rw [h2] at h4; exact absurd h4 (by simp)


/-! ## The branch taken by the dispatch -/

theorem isalpha_false_of_isdigit {c : Char} (h : isdigit c = true) : isalpha c = false := by
  simp only [isdigit, Bool.and_eq_true, decide_eq_true_eq] at h
  simp only [isalpha, Bool.or_eq_false_iff, Bool.and_eq_false_imp, decide_eq_true_eq,
    decide_eq_false_iff_not]
  omega

theorem getNextToken_alpha (input : List Char) (p q : Nat) (c : Char)
    (h : FirstNonSpace input p q c) (ha : isalpha c = true) :
    getNextToken input p = readIdentifierOrKeyword input q := by
  rw [getNextToken_firstNonSpace input p q c h, if_pos ha]

theorem getNextToken_digit (input : List Char) (p q : Nat) (c : Char)
    (h : FirstNonSpace input p q c) (hd : isdigit c = true) :
    getNextToken input p = readNumberLiteral input q := by
  rw [getNextToken_firstNonSpace input p q c h,
    if_neg (by simp [isalpha_false_of_isdigit hd]), if_pos hd]

theorem getNextToken_quote (input : List Char) (p q : Nat)
    (h : FirstNonSpace input p q quote) :
    getNextToken input p = readCharLiteral input q := by
  rw [getNextToken_firstNonSpace input p q quote h,
    if_neg (by decide), if_neg (by decide), if_pos rfl]

theorem getNextToken_unrecognized (input : List Char) (p q : Nat) (c : Char)
    (h : FirstNonSpace input p q c) (hu : unrecognized c = true) :
    getNextToken input p =
      if q = input.length - 1 then (⟨END_OF_INPUT, []⟩, q) else (⟨UNKNOWN, [c]⟩, q + 1) := by
  simp only [unrecognized, Bool.and_eq_true, Bool.not_eq_true', beq_eq_false_iff_ne] at hu
  obtain ⟨⟨⟨⟨h1, h2⟩, h3⟩, h4⟩, h5⟩ := hu
  rw [getNextToken_firstNonSpace input p q c h, if_neg (by simp [h1]), if_neg (by simp [h2]),
    if_neg h3, if_neg (by simp [h4]), if_neg (by simp [h5])]

/-- Only the identifier branch returns an `IDENTIFIER` token. -/
theorem getNextToken_identifier (input : List Char) (p : Nat)
    (hid : (getNextToken input p).1.type = IDENTIFIER) :
    ∃ q c, FirstNonSpace input p q c ∧ isalpha c = true := by
  by_cases hle : p ≤ input.length
  · rcases space_or_firstNonSpace input p with h | ⟨q, c, h⟩
    · rw [getNextToken_of_allspace input p hle h] at hid; exact absurd hid (by simp)
    · by_cases ha : isalpha c = true
      · exact ⟨q, c, h, ha⟩
      · exfalso
        rw [getNextToken_firstNonSpace input p q c h, if_neg ha] at hid
        by_cases hd : isdigit c = true
        · rw [if_pos hd] at hid
          by_cases hdot : input[advanceWhile isdigit input q]? = some '.'
          · rw [readNumberLiteral_of_dot input q hdot] at hid; exact absurd hid (by simp)
          · rw [readNumberLiteral_of_not_dot input q hdot] at hid; exact absurd hid (by simp)
        rw [if_neg hd] at hid
        by_cases hq : c = quote
        · rw [if_pos hq, readCharLiteral_eq] at hid
          revert hid
          rcases input[q + 1]? with _ | a <;> rcases input[q + 2]? with _ | b <;>
            simp only [] <;> repeat' split
          all_goals simp
        rw [if_neg hq] at hid
        revert hid
        repeat' split
        all_goals simp
  · rw [getNextToken_of_ge input p (by omega)] at hid; exact absurd hid (by simp)

/-- Once `END_OF_INPUT` has been returned, the next call returns it again from
the same cursor. -/
theorem getNextToken_eoi_stable (input : List Char) (p : Nat)
    (he : (getNextToken input p).1.type = END_OF_INPUT) :
    getNextToken input (getNextToken input p).2 =
      (⟨END_OF_INPUT, []⟩, (getNextToken input p).2) := by
  by_cases hle : p ≤ input.length
  · rcases space_or_firstNonSpace input p with h | ⟨q, c, h⟩
    · rw [getNextToken_of_allspace input p hle h]
      exact getNextToken_of_ge input _ (le_refl _)
    · rcases getNextToken_progress input p q c h with ⟨h1, _, _⟩ | ⟨h1, h2, h3⟩
      · exact absurd he h1
      · rw [h1]
        have hq : FirstNonSpace input q q c :=
          ⟨le_refl q, fun i h4 h5 => by omega, h.2.2.1, h.2.2.2⟩
        rw [getNextToken_unrecognized input q q c hq h2, if_pos (by omega)]
  · rw [getNextToken_of_ge input p (by omega)]
    exact getNextToken_of_ge input p (by omega)

theorem positionAfter_le_length (input : List Char) (n : Nat) :
    positionAfter input n ≤ input.length := by
  induction n with
  | zero => exact Nat.zero_le _
  | succ n ih => exact getNextToken_position_le input _ ih

theorem substr_split (input : List Char) (p m e : Nat) (h1 : p ≤ m) (h2 : m ≤ e) :
    substr input p (e - p) = substr input p (m - p) ++ substr input m (e - m) := by
  unfold substr
  rw [show e - p = (m - p) + (e - m) by omega, List.take_add, List.drop_drop,
    show p + (m - p) = m by omega]

theorem substr_head (input : List Char) (q n : Nat) (c : Char) (hc : input[q]? = some c)
    (hn : 0 < n) : (substr input q n).head? = some c := by
  obtain ⟨h, rfl⟩ := List.getElem?_eq_some_iff.mp hc
  unfold substr
  rw [List.drop_eq_getElem_cons h]
  obtain ⟨k, rfl⟩ : ∃ k, n = k + 1 := ⟨n - 1, by omega⟩
  rfl

theorem count_dot_substr_digits (input : List Char) (p e : Nat)
    (h : AllBetween isdigit input p e) : (substr input p (e - p)).count '.' = 0 := by
  rw [List.count_eq_zero]
  intro hmem
  obtain ⟨i, h1, h2, h3⟩ := mem_substr hmem
  by_cases hpe : p ≤ e
  · obtain ⟨c, hc, hp⟩ := h i h1 (by omega)
    rw [h3] at hc
    cases hc
    exact absurd hp (by decide)
  · have : e - p = 0 := by omega
    rw [this] at h2; omega


/-! ## The cursor when the driver exits -/

/-- The driver exits either at the end of the buffer or on an unrecognized last
character. -/
theorem mainLoop_final (input : List Char) (fuel p : Nat) (hle : p ≤ input.length)
    (tokens : List Token) (final : Nat)
    (hrun : mainLoop input fuel p = some (tokens, final)) :
    final = input.length ∨
      (final + 1 = input.length ∧ ∃ c, input[final]? = some c ∧ isspace c = false ∧
        unrecognized c = true) := by
  induction fuel generalizing p tokens final with
  | zero => simp [mainLoop] at hrun
  | succ fuel ih =>
    rw [mainLoop_succ] at hrun
    by_cases hne : (getNextToken input p).1.type ≠ END_OF_INPUT
    · rw [if_pos hne] at hrun
      rcases hm : mainLoop input fuel (getNextToken input p).2 with _ | ⟨ts, fin⟩
      · rw [hm] at hrun; exact absurd hrun (by simp)
      · rw [hm] at hrun
        simp only [Option.some.injEq, Prod.mk.injEq] at hrun
        obtain ⟨_, rfl⟩ := hrun
        exact ih _ (getNextToken_position_le input p hle) ts fin hm
    · rw [if_neg hne] at hrun
      have he : (getNextToken input p).1.type = END_OF_INPUT := by
        by_contra hcon; exact hne hcon
      simp only [Option.some.injEq, Prod.mk.injEq] at hrun
      obtain ⟨_, rfl⟩ := hrun
      rcases space_or_firstNonSpace input p with h | ⟨q, c, h⟩
      · rw [getNextToken_of_allspace input p hle h]; exact Or.inl rfl
      · rcases getNextToken_progress input p q c h with ⟨h1, _, _⟩ | ⟨h1, h2, h3⟩
        · exact absurd he h1
        · rw [h1]; exact Or.inr ⟨h3, c, h.2.2.1, h.2.2.2, h2⟩

/-! ## The range covered by a driver run -/

theorem mainLoop_final_ge (input : List Char) (fuel p : Nat) (tokens : List Token)
    (final : Nat) (hrun : mainLoop input fuel p = some (tokens, final)) : p ≤ final := by
  induction fuel generalizing p tokens final with
  | zero => simp [mainLoop] at hrun
  | succ fuel ih =>
    rw [mainLoop_succ] at hrun
    have hge := getNextToken_position_ge input p
    by_cases hne : (getNextToken input p).1.type ≠ END_OF_INPUT
    · rw [if_pos hne] at hrun
      rcases hm : mainLoop input fuel (getNextToken input p).2 with _ | ⟨ts, fin⟩
      · rw [hm] at hrun; exact absurd hrun (by simp)
      · rw [hm] at hrun
        simp only [Option.some.injEq, Prod.mk.injEq] at hrun
        obtain ⟨_, rfl⟩ := hrun
        have := ih _ ts fin hm
        omega
    · rw [if_neg hne] at hrun
      simp only [Option.some.injEq, Prod.mk.injEq] at hrun
      obtain ⟨_, rfl⟩ := hrun
      exact hge

theorem removeWhitespace_substr_of_space (input : List Char) (p e : Nat)
    (h : AllBetween isspace input p e) : removeWhitespace (substr input p (e - p)) = [] := by
  unfold removeWhitespace
  rw [List.filter_eq_nil_iff]
  intro a ha
  obtain ⟨i, h1, h2, h3⟩ := mem_substr ha
  by_cases hpe : p ≤ e
  · obtain ⟨c, hc, hp⟩ := h i h1 (by omega)
    rw [h3] at hc
    cases hc
    simp [hp]
  · have : e - p = 0 := by omega
    rw [this] at h2; omega

/-- A call that returns `END_OF_INPUT` has moved the cursor over whitespace
only. -/
theorem getNextToken_eoi_spaces (input : List Char) (p : Nat) (hle : p ≤ input.length)
    (he : (getNextToken input p).1.type = END_OF_INPUT) :
    AllBetween isspace input p (getNextToken input p).2 := by
  rcases space_or_firstNonSpace input p with h | ⟨q, c, h⟩
  · rw [getNextToken_of_allspace input p hle h]; exact h
  · rcases getNextToken_progress input p q c h with ⟨h1, _, _⟩ | ⟨h1, _, _⟩
    · exact absurd he h1
    · rw [h1]; exact h.2.1

/-- On an input without a single quote, the texts of the tokens printed by a run
of the driver loop from a cursor `p` inside the buffer concatenate to the range
of the buffer from `p` to the final cursor, without its whitespace. -/
theorem mainLoop_covers_range (input : List Char) (hq : ∀ c ∈ input, c ≠ quote)
    (fuel p : Nat) (hle : p ≤ input.length) (tokens : List Token) (final : Nat)
    (hrun : mainLoop input fuel p = some (tokens, final)) :
    concatTexts tokens = removeWhitespace (substr input p (final - p)) := by
  induction fuel generalizing p tokens final with
  | zero => simp [mainLoop] at hrun
  | succ fuel ih =>
    rw [mainLoop_succ] at hrun
    by_cases hne : (getNextToken input p).1.type ≠ END_OF_INPUT
    · rw [if_pos hne] at hrun
      rcases hm : mainLoop input fuel (getNextToken input p).2 with _ | ⟨ts, fin⟩
      · rw [hm] at hrun; exact absurd hrun (by simp)
      · rw [hm] at hrun
        simp only [Option.some.injEq, Prod.mk.injEq] at hrun
        obtain ⟨rfl, rfl⟩ := hrun
        have hih := ih _ (getNextToken_position_le input p hle) ts fin hm
        have hfin := mainLoop_final_ge input fuel _ ts fin hm
        rw [concatTexts_cons_of_ne _ _ hne, hih]
        rcases space_or_firstNonSpace input p with h | ⟨q, c, h⟩
        · rw [getNextToken_of_allspace input p hle h] at hne; exact absurd rfl hne
        · have hmem : c ∈ input := List.getElem?_mem h.2.2.1
          obtain ⟨htext, hall⟩ := getNextToken_text input p q c h (hq c hmem) hne
          have hgt : q < (getNextToken input p).2 := by
            rcases getNextToken_progress input p q c h with ⟨_, h2, _⟩ | ⟨h1, _, _⟩
            · exact h2
            · rw [h1] at hne; exact absurd rfl hne
          rw [substr_split input p q fin h.1 (by omega),
            substr_split input q (getNextToken input p).2 fin (by omega) hfin,
            removeWhitespace_append, removeWhitespace_append,
            removeWhitespace_substr_of_space input p q h.2.1,
            removeWhitespace_substr input q _ hall, ← htext]
          rfl
    · rw [if_neg hne] at hrun
      have he : (getNextToken input p).1.type = END_OF_INPUT := by
        by_contra hcon; exact hne hcon
      simp only [Option.some.injEq, Prod.mk.injEq] at hrun
      obtain ⟨rfl, rfl⟩ := hrun
      rw [concatTexts_single_eoi _ he,
        removeWhitespace_substr_of_space input p _ (getNextToken_eoi_spaces input p hle he)]

theorem substr_zero (input : List Char) (n : Nat) : substr input 0 (n - 0) = input.take n := by
  unfold substr
  simp

/-- When the driver stops on an unrecognized last character, the input without
its whitespace is longer than its part before the final cursor. -/
theorem removeWhitespace_take_ne (input : List Char) (final : Nat) (c : Char)
    (hfin : final + 1 = input.length) (hc : input[final]? = some c)
    (hs : isspace c = false) :
    removeWhitespace (input.take final) ≠ removeWhitespace input := by
  obtain ⟨hlt, rfl⟩ := List.getElem?_eq_some_iff.mp hc
  have hdrop : input.drop final = [input[final]] := by
    rw [List.drop_eq_getElem_cons hlt, List.drop_eq_nil_of_le (by omega)]
  have hsplit : input = input.take final ++ [input[final]] := by
    rw [← hdrop, List.take_append_drop]
  intro hcon
  have hlen := congrArg List.length hcon
  conv at hlen => rhs; rw [hsplit, removeWhitespace_append]
  have hone : removeWhitespace [input[final]] = [input[final]] := by
    simp [removeWhitespace, hs]
  rw [hone, List.length_append] at hlen
  simp at hlen

/-! ## Properties of the specification -/

/-- C1, as stated, fails: on the input `'a'` the driver prints `CHAR_LITERAL "a"`
and `END_OF_INPUT`, and the concatenated texts are `a`, not the input `'a'`; on
the input `@` it prints `END_OF_INPUT` alone, and the concatenated texts are
empty, not `@`. -/
theorem C1_concat_counterexample :
    (mainLoop [quote, 'a', quote] 4 0 =
        some ([⟨CHAR_LITERAL, ['a']⟩, ⟨END_OF_INPUT, []⟩], 3) ∧
      concatTexts [⟨CHAR_LITERAL, ['a']⟩, ⟨END_OF_INPUT, []⟩] ≠
        removeWhitespace [quote, 'a', quote]) ∧
    (mainLoop ['@'] 2 0 = some ([⟨END_OF_INPUT, []⟩], 0) ∧
      concatTexts [⟨END_OF_INPUT, []⟩] ≠ removeWhitespace ['@']) := by
  refine ⟨⟨?_, by decide⟩, ?_, by decide⟩
  · simp [mainLoop, getNextToken, readCharLiteral, substr, isspace, isalpha, isdigit, quote]
  · simp [mainLoop, getNextToken, isspace, isalpha, isdigit, quote, isPunctuation, isOperator]

/-- C1, amended: for every input that holds no single quote, the driver run from
cursor 0 exits, and the texts of the printed tokens other than `END_OF_INPUT`,
concatenated in order, are the input up to the final cursor with its whitespace
removed.  The final cursor is the length of the buffer, or one short of it on an
unrecognized last character, and the concatenated texts are the whole input with
its whitespace removed exactly when the final cursor is the length of the
buffer. -/
theorem C1_concat_amended (input : List Char) (hq : ∀ c ∈ input, c ≠ quote) :
    ∃ tokens final, mainLoop input (input.length + 1) 0 = some (tokens, final) ∧
      concatTexts tokens = removeWhitespace (input.take final) ∧
      (final = input.length ∨
        (final + 1 = input.length ∧
          ∃ c, input[final]? = some c ∧ isspace c = false ∧ unrecognized c = true)) ∧
      (concatTexts tokens = removeWhitespace input ↔ final = input.length) := by
  obtain ⟨tokens, final, hrun, _⟩ :=
    mainLoop_exits input (input.length + 1) 0 (Nat.zero_le _) (by omega)
  have hcov := mainLoop_covers_range input hq _ 0 (Nat.zero_le _) tokens final hrun
  rw [substr_zero] at hcov
  have hfin := mainLoop_final input _ 0 (Nat.zero_le _) tokens final hrun
  refine ⟨tokens, final, hrun, hcov, hfin, ?_⟩
  constructor
  · intro hall
    rcases hfin with h | ⟨h1, c, h2, h3, _⟩
    · exact h
    · rw [hcov] at hall
      exact absurd hall (removeWhitespace_take_ne input final c h1 h2 h3)
  · intro h
    rw [hcov, h, List.take_length]

/-- C1, amended, at the input `7. @`: the run exits with the cursor at 3, on the
`@`, and the concatenated texts are `7.`. -/
theorem C1_concat_amended_witness :
    (∀ c ∈ ['7', '.', ' ', '@'], c ≠ quote) ∧
    ∃ tokens final, mainLoop ['7', '.', ' ', '@'] (4 + 1) 0 = some (tokens, final) ∧
      concatTexts tokens = removeWhitespace (['7', '.', ' ', '@'].take final) ∧
      (final = 4 ∨ (final + 1 = 4 ∧
        ∃ c, ['7', '.', ' ', '@'][final]? = some c ∧ isspace c = false ∧
          unrecognized c = true)) ∧
      (concatTexts tokens = removeWhitespace ['7', '.', ' ', '@'] ↔ final = 4) :=
  ⟨by decide, C1_concat_amended ['7', '.', ' ', '@'] (by decide)⟩

/-- C2: for every input the driver run from cursor 0 exits within
`input.length + 1` iterations, whatever larger budget it is given; it prints at
most `input.length + 1` tokens, the last one is `END_OF_INPUT` with empty text,
and no other printed token is `END_OF_INPUT`. -/
theorem C2_driver_terminates (input : List Char) :
    ∃ tokens final,
      (∀ k, mainLoop input (input.length + 1 + k) 0 = some (tokens, final)) ∧
      tokens.length ≤ input.length + 1 ∧
      tokens.getLast? = some ⟨END_OF_INPUT, []⟩ ∧
      ∀ t ∈ tokens.dropLast, t.type ≠ END_OF_INPUT := by
  obtain ⟨tokens, final, hrun, hlen, hlast, hdrop, _⟩ :=
    mainLoop_exits input (input.length + 1) 0 (Nat.zero_le _) (by omega)
  exact ⟨tokens, final, fun k => mainLoop_mono input _ k 0 _ hrun, hlen, hlast, hdrop⟩

/-- C3: on the input `int x = 5;` the driver prints `KEYWORD "int"`,
`IDENTIFIER "x"`, `OPERATOR "="`, `INTEGER_LITERAL "5"`, `PUNCTUATION ";"` and
`END_OF_INPUT ""`, and exits with the cursor at the end of the buffer. -/
theorem C3_end_to_end :
    mainLoop "int x = 5;".toList 11 0 =
      some ([⟨KEYWORD, "int".toList⟩, ⟨IDENTIFIER, "x".toList⟩, ⟨OPERATOR, "=".toList⟩,
        ⟨INTEGER_LITERAL, "5".toList⟩, ⟨PUNCTUATION, ";".toList⟩, ⟨END_OF_INPUT, "".toList⟩],
        10) := by
  simp [mainLoop, getNextToken, readIdentifierOrKeyword, readNumberLiteral,
    advanceWhile, substr, keywords, isspace, isalpha, isdigit, isalnum, isPunctuation,
    isOperator, quote]

/-- C4: when the first non-whitespace character at or after the cursor is
alphabetic, the token text is the range of the buffer from that character to
the new cursor, a maximal run of alphanumeric characters; the token is a `KEYWORD` exactly when that text is one of `if`,
`else`, `while`, `return`, `int`, `float`, `char`, and an `IDENTIFIER` exactly
when it is not.  No `IDENTIFIER` token, from any input and cursor, has a keyword
as text; `iffy` and `If` are identifiers and `if` is a keyword. -/
theorem C4_keyword_exactness (input : List Char) (p q : Nat) (c : Char)
    (h : FirstNonSpace input p q c) (ha : isalpha c = true) :
    (getNextToken input p).1.value = substr input q ((getNextToken input p).2 - q) ∧
    MaximalRun isalnum input q (getNextToken input p).2 ∧
    ((getNextToken input p).1.type = KEYWORD ↔
      (getNextToken input p).1.value ∈
        ["if".toList, "else".toList, "while".toList, "return".toList, "int".toList,
          "float".toList, "char".toList]) ∧
    ((getNextToken input p).1.type = IDENTIFIER ↔
      (getNextToken input p).1.value ∉
        ["if".toList, "else".toList, "while".toList, "return".toList, "int".toList,
          "float".toList, "char".toList]) ∧
    (∀ (input2 : List Char) (p2 : Nat), (getNextToken input2 p2).1.type = IDENTIFIER →
      (getNextToken input2 p2).1.value ∉
        ["if".toList, "else".toList, "while".toList, "return".toList, "int".toList,
          "float".toList, "char".toList]) ∧
    getNextToken "iffy".toList 0 = (⟨IDENTIFIER, "iffy".toList⟩, 4) ∧
    getNextToken "If".toList 0 = (⟨IDENTIFIER, "If".toList⟩, 2) ∧
    getNextToken "if".toList 0 = (⟨KEYWORD, "if".toList⟩, 2) := by
  have hkw : ["if".toList, "else".toList, "while".toList, "return".toList, "int".toList,
      "float".toList, "char".toList] = keywords := rfl
  rw [hkw]
  have key : ∀ (inp : List Char) (a b : Nat) (d : Char), FirstNonSpace inp a b d →
      isalpha d = true →
      ((getNextToken inp a).1.type = KEYWORD ↔ (getNextToken inp a).1.value ∈ keywords) ∧
      ((getNextToken inp a).1.type = IDENTIFIER ↔
        (getNextToken inp a).1.value ∉ keywords) := by
    intro inp a b d hf hd
    rw [getNextToken_alpha inp a b d hf hd, readIdentifierOrKeyword_eq]
    simp only []
    by_cases hk : keywords.contains (substr inp b (advanceWhile isalnum inp b - b)) = true
    · have hmem : substr inp b (advanceWhile isalnum inp b - b) ∈ keywords := by
        simpa using hk
      rw [if_pos hk]
      exact ⟨⟨fun _ => hmem, fun _ => rfl⟩, ⟨fun hcon => absurd hcon (by simp),
        fun hcon => absurd hmem hcon⟩⟩
    · have hmem : substr inp b (advanceWhile isalnum inp b - b) ∉ keywords :=
        fun hcon => hk (by simpa using hcon)
      rw [if_neg hk]
      exact ⟨⟨fun hcon => absurd hcon (by simp), fun hcon => absurd hcon hmem⟩,
        ⟨fun _ => hmem, fun _ => rfl⟩⟩
  refine ⟨?_, ?_, (key input p q c h ha).1, (key input p q c h ha).2, ?_, ?_, ?_, ?_⟩
  · rw [getNextToken_alpha input p q c h ha, readIdentifierOrKeyword_eq]
  · rw [getNextToken_alpha input p q c h ha, readIdentifierOrKeyword_eq]
    exact advanceWhile_maximal isalnum input q (Nat.le_of_lt h.lt_length)
  · intro input2 p2 hid
    obtain ⟨q2, c2, h2, ha2⟩ := getNextToken_identifier input2 p2 hid
    exact (key input2 p2 q2 c2 h2 ha2).2.mp hid
  · simp [getNextToken, readIdentifierOrKeyword, advanceWhile, substr, keywords, isspace,
      isalpha, isdigit, isalnum]
  · simp [getNextToken, readIdentifierOrKeyword, advanceWhile, substr, keywords, isspace,
      isalpha, isdigit, isalnum]
  · simp [getNextToken, readIdentifierOrKeyword, advanceWhile, substr, keywords, isspace,
      isalpha, isdigit, isalnum]

/-- C4 at the input ` int9 `, read from cursor 0: the word `int9` starts with a
keyword and is an identifier. -/
theorem C4_keyword_exactness_witness :
    FirstNonSpace " int9 ".toList 0 1 'i' ∧ isalpha 'i' = true ∧
      (getNextToken " int9 ".toList 0).1.value =
        substr " int9 ".toList 1 ((getNextToken " int9 ".toList 0).2 - 1) :=
  ⟨⟨by decide, fun i h1 h2 => ⟨' ', by
      have hi : i = 0 := by omega
      subst hi; rfl, by decide⟩, rfl, by decide⟩, by decide,
    (C4_keyword_exactness " int9 ".toList 0 1 'i'
      ⟨by decide, fun i h1 h2 => ⟨' ', by
        have hi : i = 0 := by omega
        subst hi; rfl, by decide⟩, rfl, by decide⟩ (by decide)).1⟩


/-- C5: when the first non-whitespace character at or after the cursor is a
digit, at `q`, the call consumes the maximal run of digits from `q`, to `e`, and,
when the character at `e` is a dot, the dot and the maximal run of digits after
it, to `e2`.  The token is a `FLOAT_LITERAL` exactly when the dot was consumed and
an `INTEGER_LITERAL` otherwise; its text is the consumed range, begins with the
digit at `q` and holds at most one dot.  `42` is an integer literal, `3.14` and
`7.` are float literals. -/
theorem C5_number_literal (input : List Char) (p q : Nat) (c : Char)
    (h : FirstNonSpace input p q c) (hd : isdigit c = true) :
    (∃ e, q < e ∧ MaximalRun isdigit input q e ∧
      (input[e]? = some '.' →
        ∃ e2, MaximalRun isdigit input (e + 1) e2 ∧
          getNextToken input p = (⟨FLOAT_LITERAL, substr input q (e2 - q)⟩, e2)) ∧
      (input[e]? ≠ some '.' →
        getNextToken input p = (⟨INTEGER_LITERAL, substr input q (e - q)⟩, e)) ∧
      ((getNextToken input p).1.type = FLOAT_LITERAL ↔ input[e]? = some '.') ∧
      ((getNextToken input p).1.type = INTEGER_LITERAL ↔ input[e]? ≠ some '.')) ∧
    (getNextToken input p).1.value.head? = some c ∧
    (getNextToken input p).1.value.count '.' ≤ 1 ∧
    getNextToken "42".toList 0 = (⟨INTEGER_LITERAL, "42".toList⟩, 2) ∧
    getNextToken "3.14".toList 0 = (⟨FLOAT_LITERAL, "3.14".toList⟩, 4) ∧
    getNextToken "7.".toList 0 = (⟨FLOAT_LITERAL, "7.".toList⟩, 2) := by
  have hlt := h.lt_length
  have hcq := h.2.2.1
  have hgt := advanceWhile_gt isdigit input q c hcq hd
  have hmax := advanceWhile_maximal isdigit input q (Nat.le_of_lt hlt)
  rw [getNextToken_digit input p q c h hd]
  refine ⟨⟨advanceWhile isdigit input q, hgt, hmax, ?_, ?_, ?_, ?_⟩, ?_, ?_, ?_, ?_, ?_⟩
  · intro hdot
    have hlt2 : advanceWhile isdigit input q < input.length :=
      (List.getElem?_eq_some_iff.mp hdot).1
    exact ⟨_, advanceWhile_maximal isdigit input _ hlt2, readNumberLiteral_of_dot input q hdot⟩
  · intro hdot
    exact readNumberLiteral_of_not_dot input q hdot
  · by_cases hdot : input[advanceWhile isdigit input q]? = some '.'
    · rw [readNumberLiteral_of_dot input q hdot]; exact ⟨fun _ => hdot, fun _ => rfl⟩
    · rw [readNumberLiteral_of_not_dot input q hdot]
      exact ⟨fun hcon => absurd hcon (by simp), fun hcon => absurd hcon hdot⟩
  · by_cases hdot : input[advanceWhile isdigit input q]? = some '.'
    · rw [readNumberLiteral_of_dot input q hdot]
      exact ⟨fun hcon => absurd hcon (by simp), fun hcon => absurd hdot hcon⟩
    · rw [readNumberLiteral_of_not_dot input q hdot]; exact ⟨fun _ => hdot, fun _ => rfl⟩
  · by_cases hdot : input[advanceWhile isdigit input q]? = some '.'
    · rw [readNumberLiteral_of_dot input q hdot]
      have := advanceWhile_ge isdigit input (advanceWhile isdigit input q + 1)
      exact substr_head input q _ c hcq (by omega)
    · rw [readNumberLiteral_of_not_dot input q hdot]
      exact substr_head input q _ c hcq (by omega)
  · by_cases hdot : input[advanceWhile isdigit input q]? = some '.'
    · rw [readNumberLiteral_of_dot input q hdot]
      have hge := advanceWhile_ge isdigit input (advanceWhile isdigit input q + 1)
      simp only []
      rw [substr_split input q (advanceWhile isdigit input q) _ (by omega) (by omega),
        substr_split input (advanceWhile isdigit input q) (advanceWhile isdigit input q + 1) _
          (by omega) hge,
        show advanceWhile isdigit input q + 1 - advanceWhile isdigit input q = 1 by omega,
        substr_one input _ '.' hdot, List.count_append, List.count_append,
        count_dot_substr_digits input q _ (advanceWhile_all isdigit input q),
        count_dot_substr_digits input _ _ (advanceWhile_all isdigit input _)]
      simp
    · rw [readNumberLiteral_of_not_dot input q hdot]
      simp only []
      rw [count_dot_substr_digits input q _ (advanceWhile_all isdigit input q)]
      exact Nat.zero_le _
  · simp [getNextToken, readNumberLiteral, advanceWhile, substr, isspace, isalpha, isdigit]
  · simp [getNextToken, readNumberLiteral, advanceWhile, substr, isspace, isalpha, isdigit]
  · simp [getNextToken, readNumberLiteral, advanceWhile, substr, isspace, isalpha, isdigit]

/-- C5 at the input ` 12.5x`, read from cursor 0. -/
theorem C5_number_literal_witness :
    FirstNonSpace " 12.5x".toList 0 1 '1' ∧ isdigit '1' = true ∧
      (getNextToken " 12.5x".toList 0).1.value.head? = some '1' ∧
      (getNextToken " 12.5x".toList 0).1.value.count '.' ≤ 1 :=
  ⟨⟨by decide, fun i h1 h2 => ⟨' ', by
      have hi : i = 0 := by omega
      subst hi; rfl, by decide⟩, rfl, by decide⟩, by decide,
    (C5_number_literal " 12.5x".toList 0 1 '1'
      ⟨by decide, fun i h1 h2 => ⟨' ', by
        have hi : i = 0 := by omega
        subst hi; rfl, by decide⟩, rfl, by decide⟩ (by decide)).2.1,
    (C5_number_literal " 12.5x".toList 0 1 '1'
      ⟨by decide, fun i h1 h2 => ⟨' ', by
        have hi : i = 0 := by omega
        subst hi; rfl, by decide⟩, rfl, by decide⟩ (by decide)).2.2.1⟩

/-- C6: when the first non-whitespace character at or after the cursor is a
single quote, at `q`, the token is a `CHAR_LITERAL` exactly when the quote is
followed by a character `c` other than a quote and `c` is followed by a quote;
the text is then the one character `c` and the new cursor is `q + 3`.  `'a'` is
the character literal `a`. -/
theorem C6_char_literal (input : List Char) (p q : Nat)
    (h : FirstNonSpace input p q quote) :
    ((getNextToken input p).1.type = CHAR_LITERAL ↔
      ∃ c, input[q + 1]? = some c ∧ c ≠ quote ∧ input[q + 2]? = some quote) ∧
    (∀ c, input[q + 1]? = some c → c ≠ quote → input[q + 2]? = some quote →
      getNextToken input p = (⟨CHAR_LITERAL, [c]⟩, q + 3)) ∧
    getNextToken [quote, 'a', quote] 0 = (⟨CHAR_LITERAL, ['a']⟩, 3) := by
  rw [getNextToken_quote input p q h, readCharLiteral_eq]
  refine ⟨?_, ?_, ?_⟩
  · rcases input[q + 1]? with _ | a
    · simp
    · rcases input[q + 2]? with _ | b
      · by_cases ha : a = quote <;> simp [ha]
      · by_cases ha : a = quote
        · simp [ha]
        · by_cases hb : b = quote <;> simp [ha, hb]
  · intro c h1 h2 h3
    rw [h1, h3]
    simp [h2]
  · simp [getNextToken, readCharLiteral, substr, isspace, isalpha, isdigit, quote]

/-- C6 at the input ` 'a'`, read from cursor 0. -/
theorem C6_char_literal_witness :
    FirstNonSpace [' ', quote, 'a', quote] 0 1 quote ∧
      getNextToken [' ', quote, 'a', quote] 0 = (⟨CHAR_LITERAL, ['a']⟩, 1 + 3) :=
  ⟨⟨by decide, fun i h1 h2 => ⟨' ', by
      have hi : i = 0 := by omega
      subst hi; rfl, by decide⟩, rfl, by decide⟩,
    (C6_char_literal [' ', quote, 'a', quote] 0 1
      ⟨by decide, fun i h1 h2 => ⟨' ', by
        have hi : i = 0 := by omega
        subst hi; rfl, by decide⟩, rfl, by decide⟩).2.1 'a' rfl (by decide) rfl⟩

/-- C7: when the first non-whitespace character at or after the cursor is a
single quote, at `q`, that does not start a well-formed character literal, the
token is `UNKNOWN` with empty text; the new cursor is `q + 1` when the character
after the quote is a quote or does not exist, and `q + 2` otherwise.  `''` gives
`UNKNOWN ""` with one character consumed, `'ab'` gives `UNKNOWN ""` with two. -/
theorem C7_malformed_char_literal (input : List Char) (p q : Nat)
    (h : FirstNonSpace input p q quote)
    (hbad : ¬ ∃ c, input[q + 1]? = some c ∧ c ≠ quote ∧ input[q + 2]? = some quote) :
    (getNextToken input p).1 = ⟨UNKNOWN, []⟩ ∧
    (input[q + 1]? = some quote ∨ input[q + 1]? = none →
      (getNextToken input p).2 = q + 1) ∧
    (¬ (input[q + 1]? = some quote ∨ input[q + 1]? = none) →
      (getNextToken input p).2 = q + 2) ∧
    getNextToken [quote, quote] 0 = (⟨UNKNOWN, []⟩, 1) ∧
    getNextToken [quote, 'a', 'b', quote] 0 = (⟨UNKNOWN, []⟩, 2) := by
  rw [getNextToken_quote input p q h, readCharLiteral_eq]
  refine ⟨?_, ?_, ?_, ?_, ?_⟩
  · rcases h1 : input[q + 1]? with _ | a
    · rfl
    · rcases h2 : input[q + 2]? with _ | b
      · by_cases ha : a = quote <;> simp [ha]
      · by_cases ha : a = quote
        · simp [ha]
        · by_cases hb : b = quote
          · exact absurd ⟨a, h1, ha, by rw [h2, hb]⟩ hbad
          · simp [ha, hb]
  · rintro (h1 | h1)
    · rw [h1]
      rcases input[q + 2]? with _ | b <;> simp
    · rw [h1]
  · intro hne
    rcases h1 : input[q + 1]? with _ | a
    · exact absurd (Or.inr h1) hne
    · have ha : a ≠ quote := fun hcon => hne (Or.inl (by rw [h1, hcon]))
      rcases h2 : input[q + 2]? with _ | b
      · simp [ha]
      · by_cases hb : b = quote
        · exact absurd ⟨a, h1, ha, by rw [h2, hb]⟩ hbad
        · simp [ha, hb]
  · simp [getNextToken, readCharLiteral, substr, isspace, isalpha, isdigit, quote]
  · simp [getNextToken, readCharLiteral, substr, isspace, isalpha, isdigit, quote]

/-- C7 at the input ` 'ab'`, read from cursor 0. -/
theorem C7_malformed_char_literal_witness :
    FirstNonSpace [' ', quote, 'a', 'b', quote] 0 1 quote ∧
      (¬ ∃ c, [' ', quote, 'a', 'b', quote][1 + 1]? = some c ∧ c ≠ quote ∧
        [' ', quote, 'a', 'b', quote][1 + 2]? = some quote) ∧
      (getNextToken [' ', quote, 'a', 'b', quote] 0).1 = ⟨UNKNOWN, []⟩ :=
  ⟨⟨by decide, fun i h1 h2 => ⟨' ', by
      have hi : i = 0 := by omega
      subst hi; rfl, by decide⟩, rfl, by decide⟩,
    by rintro ⟨c, _, _, h3⟩; exact absurd h3 (by decide),
    (C7_malformed_char_literal [' ', quote, 'a', 'b', quote] 0 1
      ⟨by decide, fun i h1 h2 => ⟨' ', by
        have hi : i = 0 := by omega
        subst hi; rfl, by decide⟩, rfl, by decide⟩
      (by rintro ⟨c, _, _, h3⟩; exact absurd h3 (by decide))).1⟩


/-- C8: when the first non-whitespace character `c` at or after the cursor, at
`q`, is unrecognized, the call returns `END_OF_INPUT` with empty text and leaves
the cursor on `c` if `c` is the last character of the buffer, and otherwise
returns `UNKNOWN` with the one-character text `c` and moves the cursor just past
`c`.  The input `@` gives `END_OF_INPUT`, the input `@ ` gives `UNKNOWN "@"`. -/
theorem C8_unrecognized_character (input : List Char) (p q : Nat) (c : Char)
    (h : FirstNonSpace input p q c) (hu : unrecognized c = true) :
    (q + 1 = input.length → getNextToken input p = (⟨END_OF_INPUT, []⟩, q)) ∧
    (q + 1 ≠ input.length → getNextToken input p = (⟨UNKNOWN, [c]⟩, q + 1)) ∧
    getNextToken "@".toList 0 = (⟨END_OF_INPUT, []⟩, 0) ∧
    getNextToken "@ ".toList 0 = (⟨UNKNOWN, "@".toList⟩, 1) := by
  have hlt := h.lt_length
  rw [getNextToken_unrecognized input p q c h hu]
  refine ⟨fun hl => by rw [if_pos (by omega)], fun hl => by rw [if_neg (by omega)], ?_, ?_⟩
  · simp [getNextToken, isspace, isalpha, isdigit, quote, isPunctuation, isOperator]
  · simp [getNextToken, isspace, isalpha, isdigit, quote, isPunctuation, isOperator]

/-- C8 at the input ` #x`, read from cursor 0: `#` is not the last character. -/
theorem C8_unrecognized_character_witness :
    FirstNonSpace " #x".toList 0 1 '#' ∧ unrecognized '#' = true ∧
      getNextToken " #x".toList 0 = (⟨UNKNOWN, ['#']⟩, 1 + 1) :=
  ⟨⟨by decide, fun i h1 h2 => ⟨' ', by
      have hi : i = 0 := by omega
      subst hi; rfl, by decide⟩, rfl, by decide⟩, by decide,
    (C8_unrecognized_character " #x".toList 0 1 '#'
      ⟨by decide, fun i h1 h2 => ⟨' ', by
        have hi : i = 0 := by omega
        subst hi; rfl, by decide⟩, rfl, by decide⟩ (by decide)).2.1 (by decide)⟩

/-- C9: on a fresh lexer, once call number `n` has returned `END_OF_INPUT`, every
later call number `m` returns `END_OF_INPUT` with empty text and leaves the
cursor where it was. -/
theorem C9_end_of_input_is_stable (input : List Char) (n m : Nat)
    (he : (tokenOfCall input n).type = END_OF_INPUT) (hnm : n < m) :
    tokenOfCall input m = ⟨END_OF_INPUT, []⟩ ∧
      positionAfter input (m + 1) = positionAfter input m := by
  have key : ∀ k, getNextToken input (positionAfter input (n + 1 + k)) =
      (⟨END_OF_INPUT, []⟩, positionAfter input (n + 1 + k)) := by
    intro k
    induction k with
    | zero => exact getNextToken_eoi_stable input (positionAfter input n) he
    | succ k ih =>
      have hpos : positionAfter input (n + 1 + (k + 1)) = positionAfter input (n + 1 + k) := by
        show (getNextToken input (positionAfter input (n + 1 + k))).2 = _
        rw [ih]
      rw [hpos]
      exact ih
  obtain ⟨k, rfl⟩ : ∃ k, m = n + 1 + k := ⟨m - (n + 1), by omega⟩
  constructor
  · show (getNextToken input (positionAfter input (n + 1 + k))).1 = _
    rw [key k]
  · show (getNextToken input (positionAfter input (n + 1 + k))).2 = _
    rw [key k]

/-- C9 at the input `@`: the first call returns `END_OF_INPUT` with the cursor
still on `@`, and so does the third. -/
theorem C9_end_of_input_is_stable_witness :
    (tokenOfCall "@".toList 0).type = END_OF_INPUT ∧ 0 < 2 ∧
      tokenOfCall "@".toList 2 = ⟨END_OF_INPUT, []⟩ ∧
      positionAfter "@".toList (2 + 1) = positionAfter "@".toList 2 :=
  ⟨by simp [tokenOfCall, positionAfter, getNextToken, isspace, isalpha, isdigit, quote,
      isPunctuation, isOperator],
    by decide,
    C9_end_of_input_is_stable "@".toList 0 2
      (by simp [tokenOfCall, positionAfter, getNextToken, isspace, isalpha, isdigit, quote,
        isPunctuation, isOperator]) (by decide)⟩

/-- C10: the cursor of a fresh lexer is 0; no call of `getNextToken` decreases
it and it never exceeds the length of the buffer.  In particular
`readCharLiteral`, entered on a quote inside the buffer, moves the cursor forward
and leaves it within the buffer. -/
theorem C10_cursor_monotone_and_bounded (input : List Char) :
    positionAfter input 0 = 0 ∧
    (∀ n, positionAfter input n ≤ positionAfter input (n + 1) ∧
      positionAfter input n ≤ input.length) ∧
    (∀ p, p < input.length →
      p < (readCharLiteral input p).2 ∧ (readCharLiteral input p).2 ≤ input.length) := by
  refine ⟨rfl, fun n => ⟨getNextToken_position_ge input _, positionAfter_le_length input n⟩,
    fun p hp => ?_⟩
  obtain ⟨h1, h2, _⟩ := readCharLiteral_bounds input p hp
  exact ⟨h1, h2⟩

/-! # Further lemmas -/

/-! ## Punctuation and operator characters -/

theorem isPunctuation_iff (c : Char) :
    isPunctuation c = true ↔ c = '{' ∨ c = '}' ∨ c = ';' ∨ c = ',' := by
  simp [isPunctuation, or_assoc]

theorem isOperator_iff (c : Char) :
    isOperator c = true ↔ c = '+' ∨ c = '-' ∨ c = '*' ∨ c = '/' ∨ c = '%' ∨ c = '=' ∨
      c = '&' ∨ c = '|' ∨ c = '!' ∨ c = '<' ∨ c = '>' := by
  simp [isOperator, or_assoc]

theorem isPunctuation_class {c : Char} (h : isPunctuation c = true) :
    isspace c = false ∧ isalpha c = false ∧ isdigit c = false ∧ c ≠ quote := by
  rcases (isPunctuation_iff c).mp h with rfl | rfl | rfl | rfl <;> decide

theorem isOperator_class {c : Char} (h : isOperator c = true) :
    isspace c = false ∧ isalpha c = false ∧ isdigit c = false ∧ c ≠ quote ∧
      isPunctuation c = false := by
  rcases (isOperator_iff c).mp h with
    rfl | rfl | rfl | rfl | rfl | rfl | rfl | rfl | rfl | rfl | rfl <;> decide

theorem getNextToken_punctuation (input : List Char) (p q : Nat) (c : Char)
    (h : FirstNonSpace input p q c) (hp : isPunctuation c = true) :
    getNextToken input p = (⟨PUNCTUATION, [c]⟩, q + 1) := by
  obtain ⟨_, h2, h3, h4⟩ := isPunctuation_class hp
  rw [getNextToken_firstNonSpace input p q c h, if_neg (by simp [h2]), if_neg (by simp [h3]),
    if_neg h4, if_pos hp]

theorem getNextToken_operator (input : List Char) (p q : Nat) (c : Char)
    (h : FirstNonSpace input p q c) (ho : isOperator c = true) :
    getNextToken input p = (⟨OPERATOR, [c]⟩, q + 1) := by
  obtain ⟨_, h2, h3, h4, h5⟩ := isOperator_class ho
  rw [getNextToken_firstNonSpace input p q c h, if_neg (by simp [h2]), if_neg (by simp [h3]),
    if_neg h4, if_neg (by simp [h5]), if_pos ho]

/-! ## The kind of the token, by the first non-whitespace character -/

theorem readCharLiteral_kind (input : List Char) (p : Nat) :
    (readCharLiteral input p).1.type = CHAR_LITERAL ∨
      (readCharLiteral input p).1 = ⟨UNKNOWN, []⟩ := by
  rw [readCharLiteral_eq]
  rcases input[p + 1]? with _ | a <;> rcases input[p + 2]? with _ | b <;>
    simp only [] <;> repeat' split
  all_goals simp

theorem readNumberLiteral_kind (input : List Char) (p : Nat) :
    (readNumberLiteral input p).1.type = FLOAT_LITERAL ∨
      (readNumberLiteral input p).1.type = INTEGER_LITERAL := by
  by_cases hdot : input[advanceWhile isdigit input p]? = some '.'
  · rw [readNumberLiteral_of_dot input p hdot]; exact Or.inl rfl
  · rw [readNumberLiteral_of_not_dot input p hdot]; exact Or.inr rfl

theorem readIdentifierOrKeyword_kind (input : List Char) (p : Nat) :
    (readIdentifierOrKeyword input p).1.type = KEYWORD ∨
      (readIdentifierOrKeyword input p).1.type = IDENTIFIER := by
  rw [readIdentifierOrKeyword_eq]
  simp only []
  split
  · exact Or.inl rfl
  · exact Or.inr rfl

/-- A call that does not return `END_OF_INPUT` has found a first non-whitespace
character, has moved the cursor past it and has stayed within the buffer. -/
theorem getNextToken_of_ne_eoi (input : List Char) (p : Nat)
    (hne : (getNextToken input p).1.type ≠ END_OF_INPUT) :
    ∃ q c, FirstNonSpace input p q c ∧ q < (getNextToken input p).2 ∧
      (getNextToken input p).2 ≤ input.length := by
  by_cases hle : p ≤ input.length
  · rcases space_or_firstNonSpace input p with h | ⟨q, c, h⟩
    · rw [getNextToken_of_allspace input p hle h] at hne; exact absurd rfl hne
    · rcases getNextToken_progress input p q c h with ⟨_, h2, h3⟩ | ⟨h1, _, _⟩
      · exact ⟨q, c, h, h2, h3⟩
      · rw [h1] at hne; exact absurd rfl hne
  · rw [getNextToken_of_ge input p (by omega)] at hne; exact absurd rfl hne

theorem FirstNonSpace.unique_position {input : List Char} {p q q2 : Nat} {c c2 : Char}
    (h : FirstNonSpace input p q c) (h2 : FirstNonSpace input p q2 c2) :
    q = q2 ∧ c = c2 := by
  have key : ∀ {a b : Nat} {x y : Char}, FirstNonSpace input p a x →
      FirstNonSpace input p b y → ¬ a < b := by
    intro a b x y ha hb hlt
    obtain ⟨d, hd, hs⟩ := hb.2.1 a ha.1 hlt
    rw [ha.2.2.1] at hd
    cases hd
    rw [ha.2.2.2] at hs
    exact absurd hs (by simp)
  have hq : q = q2 := by
    have := key h h2
    have := key h2 h
    omega
  subst hq
  have := h.2.2.1
  rw [h2.2.2.1] at this
  cases this
  exact ⟨rfl, rfl⟩

/-- Only the punctuation and operator branches return a `PUNCTUATION` or an
`OPERATOR` token, and the text is then the single dispatched character. -/
theorem getNextToken_punctuation_or_operator (input : List Char) (p : Nat)
    (hk : (getNextToken input p).1.type = OPERATOR ∨
      (getNextToken input p).1.type = PUNCTUATION) :
    ∃ q c, FirstNonSpace input p q c ∧ (isPunctuation c = true ∨ isOperator c = true) ∧
      (getNextToken input p).1.value = [c] ∧ (getNextToken input p).2 = q + 1 := by
  have hne : (getNextToken input p).1.type ≠ END_OF_INPUT := by
    rcases hk with hk | hk <;> rw [hk] <;> simp
  obtain ⟨q, c, h, _, _⟩ := getNextToken_of_ne_eoi input p hne
  refine ⟨q, c, h, ?_⟩
  by_cases hp : isPunctuation c = true
  · rw [getNextToken_punctuation input p q c h hp]; exact ⟨Or.inl hp, rfl, rfl⟩
  by_cases ho : isOperator c = true
  · rw [getNextToken_operator input p q c h ho]; exact ⟨Or.inr ho, rfl, rfl⟩
  exfalso
  rw [getNextToken_firstNonSpace input p q c h] at hk
  by_cases ha : isalpha c = true
  · rw [if_pos ha] at hk
    rcases readIdentifierOrKeyword_kind input q with h1 | h1 <;> rw [h1] at hk <;>
      simp at hk
  rw [if_neg ha] at hk
  by_cases hd : isdigit c = true
  · rw [if_pos hd] at hk
    rcases readNumberLiteral_kind input q with h1 | h1 <;> rw [h1] at hk <;> simp at hk
  rw [if_neg hd] at hk
  by_cases hq : c = quote
  · rw [if_pos hq] at hk
    rcases readCharLiteral_kind input q with h1 | h1 <;> rw [h1] at hk <;> simp at hk
  rw [if_neg hq, if_neg hp, if_neg ho] at hk
  revert hk
  split <;> simp

/-! ## Whitespace is not recognised -/

theorem unrecognized_of_isspace {c : Char} (h : isspace c = true) : unrecognized c = true := by
  have h1 : isalpha c = false := by
    cases ha : isalpha c
    · rfl
    · rw [isspace_false_of_isalnum (isalnum_of_isalpha ha)] at h; exact absurd h (by simp)
  have h2 : isdigit c = false := by
    cases hd : isdigit c
    · rfl
    · rw [isspace_false_of_isdigit hd] at h; exact absurd h (by simp)
  have h3 : c ≠ quote := by
    intro hq; subst hq; exact absurd h (by decide)
  have h4 : isPunctuation c = false := by
    cases hp : isPunctuation c
    · rfl
    · rw [(isPunctuation_class hp).1] at h; exact absurd h (by simp)
  have h5 : isOperator c = false := by
    cases ho : isOperator c
    · rfl
    · rw [(isOperator_class ho).1] at h; exact absurd h (by simp)
  simp [unrecognized, h1, h2, h3, h4, h5]

theorem unrecognized_eq_false_iff (c : Char) :
    unrecognized c = false ↔
      isalpha c = true ∨ isdigit c = true ∨ c = quote ∨ isPunctuation c = true ∨
        isOperator c = true := by
  unfold unrecognized
  cases isalpha c <;> cases isdigit c <;> cases isPunctuation c <;> cases isOperator c <;>
    by_cases hq : c = quote <;> simp [hq]

/-- The exact condition under which a call returns `END_OF_INPUT`. -/
theorem getNextToken_eoi_iff (input : List Char) (p : Nat) :
    (getNextToken input p).1.type = END_OF_INPUT ↔
      AllBetween isspace input p input.length ∨
        ∃ q c, FirstNonSpace input p q c ∧ unrecognized c = true ∧ q + 1 = input.length := by
  constructor
  · intro he
    rcases space_or_firstNonSpace input p with h | ⟨q, c, h⟩
    · exact Or.inl h
    · rcases getNextToken_progress input p q c h with ⟨h1, _, _⟩ | ⟨_, h2, h3⟩
      · exact absurd he h1
      · exact Or.inr ⟨q, c, h, h2, h3⟩
  · rintro (h | ⟨q, c, h, hu, hl⟩)
    · by_cases hle : p ≤ input.length
      · rw [getNextToken_of_allspace input p hle h]
      · rw [getNextToken_of_ge input p (by omega)]
    · rw [getNextToken_unrecognized input p q c h hu, if_pos (by omega)]

/-! ## Scanning the unread suffix -/

theorem getElem?_drop_add (input : List Char) (p k : Nat) :
    (input.drop p)[k]? = input[p + k]? := by
  rw [List.getElem?_drop]

theorem substr_drop (input : List Char) (p k n : Nat) :
    substr (input.drop p) k n = substr input (p + k) n := by
  unfold substr
  rw [List.drop_drop]

theorem advanceWhile_drop (pred : Char → Bool) (input : List Char) (p k : Nat) :
    advanceWhile pred input (p + k) = p + advanceWhile pred (input.drop p) k := by
  induction k using advanceWhile.induct pred (input.drop p) with
  | case1 k h hp ih =>
    have hc : (input.drop p)[k]? = some (input.drop p)[k] := List.getElem?_eq_getElem h
    rw [advanceWhile_of_true pred (input.drop p) k _ hc hp]
    rw [getElem?_drop_add] at hc
    rw [advanceWhile_of_true pred input (p + k) _ hc hp]
    exact ih
  | case2 k h hp =>
    have hc : (input.drop p)[k]? = some (input.drop p)[k] := List.getElem?_eq_getElem h
    have hp2 : pred (input.drop p)[k] = false := by simpa using hp
    rw [advanceWhile_of_false pred (input.drop p) k _ hc hp2]
    rw [getElem?_drop_add] at hc
    rw [advanceWhile_of_false pred input (p + k) _ hc hp2]
  | case3 k h =>
    rw [advanceWhile_of_ge pred (input.drop p) k (by omega)]
    rw [List.length_drop] at h
    rw [advanceWhile_of_ge pred input (p + k) (by omega)]

theorem readIdentifierOrKeyword_drop (input : List Char) (p k : Nat) :
    readIdentifierOrKeyword input (p + k) =
      ((readIdentifierOrKeyword (input.drop p) k).1,
        p + (readIdentifierOrKeyword (input.drop p) k).2) := by
  rw [readIdentifierOrKeyword_eq, readIdentifierOrKeyword_eq, advanceWhile_drop, substr_drop,
    show p + advanceWhile isalnum (input.drop p) k - (p + k) =
      advanceWhile isalnum (input.drop p) k - k by omega]

theorem readNumberLiteral_drop (input : List Char) (p k : Nat) :
    readNumberLiteral input (p + k) =
      ((readNumberLiteral (input.drop p) k).1,
        p + (readNumberLiteral (input.drop p) k).2) := by
  by_cases hdot : (input.drop p)[advanceWhile isdigit (input.drop p) k]? = some '.'
  · rw [readNumberLiteral_of_dot (input.drop p) k hdot]
    rw [getElem?_drop_add, ← advanceWhile_drop] at hdot
    rw [readNumberLiteral_of_dot input (p + k) hdot]
    simp only []
    rw [advanceWhile_drop isdigit input p k,
      show p + advanceWhile isdigit (input.drop p) k + 1 =
        p + (advanceWhile isdigit (input.drop p) k + 1) by omega,
      advanceWhile_drop isdigit input p, substr_drop,
      show p + advanceWhile isdigit (input.drop p)
          (advanceWhile isdigit (input.drop p) k + 1) - (p + k) =
        advanceWhile isdigit (input.drop p) (advanceWhile isdigit (input.drop p) k + 1) - k
        by omega]
  · rw [readNumberLiteral_of_not_dot (input.drop p) k hdot]
    rw [getElem?_drop_add, ← advanceWhile_drop] at hdot
    rw [readNumberLiteral_of_not_dot input (p + k) hdot]
    simp only []
    rw [advanceWhile_drop isdigit input p k, substr_drop,
      show p + advanceWhile isdigit (input.drop p) k - (p + k) =
        advanceWhile isdigit (input.drop p) k - k by omega]

theorem readCharLiteral_drop (input : List Char) (p k : Nat) :
    readCharLiteral input (p + k) =
      ((readCharLiteral (input.drop p) k).1, p + (readCharLiteral (input.drop p) k).2) := by
  rw [readCharLiteral_eq, readCharLiteral_eq, getElem?_drop_add, getElem?_drop_add,
    show p + (k + 1) = p + k + 1 by omega, show p + (k + 2) = p + k + 2 by omega]
  rcases input[p + k + 1]? with _ | a <;> rcases input[p + k + 2]? with _ | b <;>
    simp only [] <;> repeat' split
  all_goals simp only [Prod.mk.injEq, true_and]
  all_goals omega

/-- One call from the cursor `p + k` of the buffer is one call from the cursor
`k` of the buffer without its first `p` characters, with the cursor shifted by
`p`. -/
theorem getNextToken_drop (input : List Char) (p k : Nat) :
    getNextToken input (p + k) =
      ((getNextToken (input.drop p) k).1, p + (getNextToken (input.drop p) k).2) := by
  induction k using getNextToken.induct (input.drop p) with
  | case1 k h c hs ih =>
    have hc : (input.drop p)[k]? = some c := List.getElem?_eq_getElem h
    rw [getNextToken_of_space (input.drop p) k c hc hs]
    rw [getElem?_drop_add] at hc
    rw [getNextToken_of_space input (p + k) c hc hs]
    exact ih
  | case9 k h =>
    rw [getNextToken_of_ge (input.drop p) k (by omega)]
    rw [List.length_drop] at h
    rw [getNextToken_of_ge input (p + k) (by omega)]
  | case2 k h c hs | case3 k h c hs | case4 k h c hs | case5 k h c hs | case6 k h c hs
  | case8 k h c hs =>
    have hc : (input.drop p)[k]? = some c := List.getElem?_eq_getElem h
    have hs2 : isspace c = false := by simpa using hs
    rw [getNextToken_of_nonspace (input.drop p) k c hc hs2]
    rw [getElem?_drop_add] at hc
    rw [getNextToken_of_nonspace input (p + k) c hc hs2]
    have hlen : (p + k = input.length - 1) ↔ (k = (input.drop p).length - 1) := by
      rw [List.length_drop] at h ⊢
      omega
    rw [readIdentifierOrKeyword_drop, readNumberLiteral_drop, readCharLiteral_drop]
    simp only [hlen]
    repeat' split
    all_goals rfl
  | case7 h c hs =>
    have hc : (input.drop p)[(input.drop p).length - 1]? = some c :=
      List.getElem?_eq_getElem h
    have hs2 : isspace c = false := by simpa using hs
    rw [getNextToken_of_nonspace (input.drop p) _ c hc hs2]
    rw [getElem?_drop_add] at hc
    rw [getNextToken_of_nonspace input _ c hc hs2]
    have hlen : (p + ((input.drop p).length - 1) = input.length - 1) ↔
        ((input.drop p).length - 1 = (input.drop p).length - 1) := by
      rw [List.length_drop] at h ⊢
      omega
    rw [readIdentifierOrKeyword_drop, readNumberLiteral_drop, readCharLiteral_drop]
    simp only [hlen]
    repeat' split
    all_goals rfl

theorem mainLoop_drop (input : List Char) (p fuel k : Nat) :
    mainLoop input fuel (p + k) =
      (mainLoop (input.drop p) fuel k).map (fun r => (r.1, p + r.2)) := by
  induction fuel generalizing k with
  | zero => rfl
  | succ fuel ih =>
    rw [mainLoop_succ, mainLoop_succ, getNextToken_drop input p k]
    simp only []
    by_cases hne : (getNextToken (input.drop p) k).1.type ≠ END_OF_INPUT
    · rw [if_pos hne, if_pos hne, ih]
      rcases mainLoop (input.drop p) fuel (getNextToken (input.drop p) k).2 with _ | ⟨ts, fin⟩
      · rfl
      · rfl
    · rw [if_neg hne, if_neg hne]
      rfl

/-! ## Scanning a text that is followed by a space or by the end of the buffer -/

theorem advanceWhile_append (pred : Char → Bool) (xs rest : List Char)
    (hxs : ∀ a ∈ xs, pred a = true) (hrest : ∀ d, rest.head? = some d → pred d = false) :
    advanceWhile pred (xs ++ rest) 0 = xs.length := by
  induction xs with
  | nil =>
    rcases rest with _ | ⟨d, r⟩
    · exact advanceWhile_of_ge pred _ 0 (by simp)
    · exact advanceWhile_of_false pred _ 0 d (by simp) (hrest d rfl)
  | cons a xs ih =>
    rw [advanceWhile_of_true pred _ 0 a (by simp) (hxs a (List.mem_cons_self a xs))]
    have h := advanceWhile_drop pred ((a :: xs) ++ rest) 1 0
    rw [show (1 : Nat) + 0 = 0 + 1 by rfl] at h
    rw [h]
    have hd : ((a :: xs) ++ rest).drop 1 = xs ++ rest := rfl
    rw [hd, ih (fun b hb => hxs b (List.mem_cons_of_mem a hb))]
    simp only [List.length_cons]
    omega

theorem substr_zero_append (xs rest : List Char) :
    substr (xs ++ rest) 0 (xs.length - 0) = xs := by
  unfold substr
  simp

theorem firstNonSpace_zero (c : Char) (r : List Char) (hs : isspace c = false) :
    FirstNonSpace (c :: r) 0 0 c :=
  ⟨le_refl 0, fun i h1 h2 => by omega, by simp, hs⟩

theorem isdigit_class {c : Char} (h : isdigit c = true) :
    isspace c = false ∧ c ≠ '.' ∧ c ≠ ' ' := by
  refine ⟨isspace_false_of_isdigit h, ?_, ?_⟩
  · intro hc; subst hc; exact absurd h (by decide)
  · intro hc; subst hc; exact absurd h (by decide)

/-- A lexeme followed by a space or by the end of the buffer scans back to
itself. -/
theorem getNextToken_lexeme (t : Token) (rest : List Char) (ht : Lexeme t)
    (hrest : ∀ d, rest.head? = some d → d = ' ') :
    getNextToken (t.value ++ rest) 0 = (t, t.value.length) := by
  rcases ht with ⟨c, w, hv, hc, hw, hty⟩ | ⟨d, ds, hds, rfl⟩ | ⟨d, ds, es, hds, hes, rfl⟩ |
    ⟨c, hc, rfl⟩ | ⟨c, hc, rfl⟩
  · have hs := isspace_false_of_isalnum (isalnum_of_isalpha hc)
    have hall : ∀ a ∈ t.value, isalnum a = true := by
      intro a ha
      rw [hv] at ha
      rcases List.mem_cons.mp ha with rfl | ha
      · exact isalnum_of_isalpha hc
      · exact hw a ha
    have hfirst : FirstNonSpace (t.value ++ rest) 0 0 c := by
      rw [hv]; exact firstNonSpace_zero c (w ++ rest) hs
    have hadv : advanceWhile isalnum (t.value ++ rest) 0 = t.value.length :=
      advanceWhile_append isalnum t.value rest hall
        (fun d hd => by rw [hrest d hd]; decide)
    rw [getNextToken_alpha _ 0 0 c hfirst hc, readIdentifierOrKeyword_eq, hadv,
      substr_zero_append, ← hty]
  · have hfirst : FirstNonSpace ((d :: ds) ++ rest) 0 0 d :=
      firstNonSpace_zero d (ds ++ rest) (isdigit_class (hds d (List.mem_cons_self d ds))).1
    have hadv : advanceWhile isdigit ((d :: ds) ++ rest) 0 = (d :: ds).length :=
      advanceWhile_append isdigit (d :: ds) rest hds
        (fun e he => by rw [hrest e he]; decide)
    have hnd : ((d :: ds) ++ rest)[advanceWhile isdigit ((d :: ds) ++ rest) 0]? ≠
        some '.' := by
      rw [hadv, List.getElem?_append_right (le_refl _), Nat.sub_self]
      intro hcon
      have h0 : rest.head? = some '.' := by
        rcases rest with _ | ⟨e, r⟩
        · simp at hcon
        · simpa using hcon
      exact absurd (hrest '.' h0) (by decide)
    rw [getNextToken_digit _ 0 0 d hfirst (hds d (List.mem_cons_self d ds)),
      readNumberLiteral_of_not_dot _ 0 hnd, hadv, substr_zero_append]
  · have hfirst : FirstNonSpace (((d :: ds) ++ '.' :: es) ++ rest) 0 0 d :=
      firstNonSpace_zero d (ds ++ '.' :: es ++ rest)
        (isdigit_class (hds d (List.mem_cons_self d ds))).1
    have hassoc : ((d :: ds) ++ '.' :: es) ++ rest = (d :: ds) ++ ('.' :: (es ++ rest)) := by
      simp
    have hadv : advanceWhile isdigit (((d :: ds) ++ '.' :: es) ++ rest) 0 = (d :: ds).length := by
      rw [hassoc]
      exact advanceWhile_append isdigit (d :: ds) _ hds
        (fun e he => by cases he; decide)
    have hdot : (((d :: ds) ++ '.' :: es) ++ rest)[advanceWhile isdigit
        (((d :: ds) ++ '.' :: es) ++ rest) 0]? = some '.' := by
      rw [hadv, hassoc, List.getElem?_append_right (le_refl _), Nat.sub_self]
      simp
    have hadv2 : advanceWhile isdigit (((d :: ds) ++ '.' :: es) ++ rest)
        ((d :: ds).length + 1) = ((d :: ds) ++ '.' :: es).length := by
      have h := advanceWhile_drop isdigit (((d :: ds) ++ '.' :: es) ++ rest)
        ((d :: ds).length + 1) 0
      rw [Nat.add_zero] at h
      rw [h]
      have hd : (((d :: ds) ++ '.' :: es) ++ rest).drop ((d :: ds).length + 1) = es ++ rest := by
        rw [show ((d :: ds) ++ '.' :: es) ++ rest = ((d :: ds) ++ ['.']) ++ (es ++ rest) by simp]
        exact List.drop_left' (by simp)
      rw [hd, advanceWhile_append isdigit es rest hes
        (fun e he => by rw [hrest e he]; decide)]
      simp only [List.length_append, List.length_cons]
      omega
    rw [getNextToken_digit _ 0 0 d hfirst (hds d (List.mem_cons_self d ds)),
      readNumberLiteral_of_dot _ 0 hdot, hadv, hadv2, substr_zero_append]
  · exact getNextToken_punctuation _ 0 0 c
      (firstNonSpace_zero c rest (isPunctuation_class hc).1) hc
  · exact getNextToken_operator _ 0 0 c (firstNonSpace_zero c rest (isOperator_class hc).1) hc

/-! ## The tokens of a run are lexemes -/

theorem substr_digits (input : List Char) (q e : Nat) (h : AllBetween isdigit input q e) :
    ∀ a ∈ substr input q (e - q), isdigit a = true := by
  intro a ha
  obtain ⟨i, h1, h2, h3⟩ := mem_substr ha
  by_cases hqe : q ≤ e
  · obtain ⟨d, hd1, hd2⟩ := h i h1 (by omega)
    rw [h3] at hd1
    cases hd1
    exact hd2
  · have : e - q = 0 := by omega
    rw [this] at h2; omega

theorem cons_of_head? {xs : List Char} {c : Char} (h : xs.head? = some c) :
    ∃ w, xs = c :: w := by
  rcases xs with _ | ⟨a, w⟩
  · simp at h
  · simp only [List.head?_cons, Option.some.injEq] at h
    exact ⟨w, by rw [h]⟩

/-- A token returned by `getNextToken` that is neither `END_OF_INPUT`, nor
`CHAR_LITERAL`, nor `UNKNOWN` is a lexeme. -/
theorem getNextToken_is_lexeme (input : List Char) (p : Nat)
    (h1 : (getNextToken input p).1.type ≠ END_OF_INPUT)
    (h2 : (getNextToken input p).1.type ≠ CHAR_LITERAL)
    (h3 : (getNextToken input p).1.type ≠ UNKNOWN) :
    Lexeme (getNextToken input p).1 := by
  obtain ⟨q, c, h, _, _⟩ := getNextToken_of_ne_eoi input p h1
  have hcq := h.2.2.1
  have hlt := h.lt_length
  by_cases ha : isalpha c = true
  · left
    have hgt := advanceWhile_gt isalnum input q c hcq (isalnum_of_isalpha ha)
    have hhead := substr_head input q (advanceWhile isalnum input q - q) c hcq (by omega)
    obtain ⟨w, hw⟩ := cons_of_head? hhead
    rw [getNextToken_alpha input p q c h ha, readIdentifierOrKeyword_eq]
    refine ⟨c, w, hw, ha, ?_, rfl⟩
    intro a haw
    have hmem : a ∈ substr input q (advanceWhile isalnum input q - q) := by
      rw [hw]; exact List.mem_cons_of_mem c haw
    obtain ⟨i, hi1, hi2, hi3⟩ := mem_substr hmem
    obtain ⟨d, hd1, hd2⟩ := advanceWhile_all isalnum input q i hi1 (by omega)
    rw [hi3] at hd1
    cases hd1
    exact hd2
  by_cases hd : isdigit c = true
  · right
    have hgt := advanceWhile_gt isdigit input q c hcq hd
    have hhead := substr_head input q (advanceWhile isdigit input q - q) c hcq (by omega)
    obtain ⟨ds, hds⟩ := cons_of_head? hhead
    have hdig := substr_digits input q _ (advanceWhile_all isdigit input q)
    rw [hds] at hdig
    rw [getNextToken_digit input p q c h hd]
    by_cases hdot : input[advanceWhile isdigit input q]? = some '.'
    · right; left
      have hge := advanceWhile_ge isdigit input (advanceWhile isdigit input q + 1)
      rw [readNumberLiteral_of_dot input q hdot]
      refine ⟨c, ds, substr input (advanceWhile isdigit input q + 1)
        (advanceWhile isdigit input (advanceWhile isdigit input q + 1) -
          (advanceWhile isdigit input q + 1)), hdig,
        substr_digits input _ _ (advanceWhile_all isdigit input _), ?_⟩
      rw [substr_split input q (advanceWhile isdigit input q) _ (by omega) (by omega),
        substr_split input (advanceWhile isdigit input q) (advanceWhile isdigit input q + 1) _
          (by omega) hge,
        show advanceWhile isdigit input q + 1 - advanceWhile isdigit input q = 1 by omega,
        substr_one input _ '.' hdot, hds]
      rfl
    · left
      rw [readNumberLiteral_of_not_dot input q hdot, hds]
      exact ⟨c, ds, hdig, rfl⟩
  by_cases hq : c = quote
  · exfalso
    subst hq
    rw [getNextToken_quote input p q h] at h2 h3
    rcases readCharLiteral_kind input q with hk | hk
    · exact h2 hk
    · rw [hk] at h3; exact h3 rfl
  by_cases hp : isPunctuation c = true
  · right; right; right; left
    rw [getNextToken_punctuation input p q c h hp]
    exact ⟨c, hp, rfl⟩
  by_cases ho : isOperator c = true
  · right; right; right; right
    rw [getNextToken_operator input p q c h ho]
    exact ⟨c, ho, rfl⟩
  exfalso
  have hu : unrecognized c = true := by simp [unrecognized, ha, hd, hq, hp, ho]
  rw [getNextToken_unrecognized input p q c h hu] at h1 h3
  by_cases hl : q = input.length - 1
  · rw [if_pos hl] at h1; exact h1 rfl
  · rw [if_neg hl] at h3; exact h3 rfl

theorem Lexeme.type_ne_eoi {t : Token} (h : Lexeme t) : t.type ≠ END_OF_INPUT := by
  rcases h with ⟨c, w, _, _, _, hty⟩ | ⟨d, ds, _, rfl⟩ | ⟨d, ds, es, _, _, rfl⟩ |
    ⟨c, _, rfl⟩ | ⟨c, _, rfl⟩
  · rw [hty]; split <;> simp
  all_goals simp

/-- Every token printed by the driver was returned by `getNextToken`. -/
theorem mainLoop_mem (input : List Char) (fuel p : Nat) (tokens : List Token) (final : Nat)
    (hrun : mainLoop input fuel p = some (tokens, final)) :
    ∀ t ∈ tokens, ∃ p2, t = (getNextToken input p2).1 := by
  induction fuel generalizing p tokens final with
  | zero => simp [mainLoop] at hrun
  | succ fuel ih =>
    rw [mainLoop_succ] at hrun
    by_cases hne : (getNextToken input p).1.type ≠ END_OF_INPUT
    · rw [if_pos hne] at hrun
      rcases hm : mainLoop input fuel (getNextToken input p).2 with _ | ⟨ts, fin⟩
      · rw [hm] at hrun; exact absurd hrun (by simp)
      · rw [hm] at hrun
        simp only [Option.some.injEq, Prod.mk.injEq] at hrun
        obtain ⟨rfl, rfl⟩ := hrun
        intro t ht
        rcases List.mem_cons.mp ht with rfl | ht
        · exact ⟨p, rfl⟩
        · exact ih _ ts fin hm t ht
    · rw [if_neg hne] at hrun
      simp only [Option.some.injEq, Prod.mk.injEq] at hrun
      obtain ⟨rfl, rfl⟩ := hrun
      intro t ht
      rw [List.mem_singleton] at ht
      exact ⟨p, ht⟩

/-! ## Scanning the joined texts -/

theorem joinWithSpace_cons (x : List Char) (xs : List (List Char)) :
    joinWithSpace (x :: xs) =
      x ++ (if xs = [] then [] else ' ' :: joinWithSpace xs) := by
  rcases xs with _ | ⟨y, r⟩
  · simp [joinWithSpace]
  · simp [joinWithSpace]

theorem mainLoop_congr_start (input : List Char) (fuel p p2 : Nat)
    (h : getNextToken input p = getNextToken input p2) :
    mainLoop input fuel p = mainLoop input fuel p2 := by
  rcases fuel with _ | fuel
  · rfl
  · rw [mainLoop_succ, mainLoop_succ, h]

theorem mainLoop_cons_space (s : List Char) (fuel : Nat) :
    (mainLoop (' ' :: s) fuel 0).map Prod.fst = (mainLoop s fuel 0).map Prod.fst := by
  have h1 : getNextToken (' ' :: s) 0 = getNextToken (' ' :: s) (1 + 0) :=
    getNextToken_of_space (' ' :: s) 0 ' ' (by simp) (by decide)
  rw [mainLoop_congr_start (' ' :: s) fuel 0 (1 + 0) h1, mainLoop_drop (' ' :: s) 1 fuel 0]
  have hd : (' ' :: s).drop 1 = s := rfl
  rw [hd]
  simp [Function.comp_def]

theorem mainLoop_nil (fuel : Nat) : mainLoop [] (fuel + 1) 0 = some ([⟨END_OF_INPUT, []⟩], 0) := by
  rw [mainLoop_succ, getNextToken_of_ge [] 0 (le_refl _)]
  simp

/-- The driver, run on lexeme texts joined with single spaces, prints these
lexemes and `END_OF_INPUT`. -/
theorem mainLoop_joinWithSpace (lexemes : List Token) (hlex : ∀ t ∈ lexemes, Lexeme t)
    (fuel : Nat) (hfuel : lexemes.length < fuel) :
    (mainLoop (joinWithSpace (lexemes.map Token.value)) fuel 0).map Prod.fst =
      some (lexemes ++ [⟨END_OF_INPUT, []⟩]) := by
  induction lexemes generalizing fuel with
  | nil =>
    obtain ⟨f, rfl⟩ : ∃ f, fuel = f + 1 := ⟨fuel - 1, by simp at hfuel; omega⟩
    simp only [List.map_nil, joinWithSpace, mainLoop_nil]
    rfl
  | cons t ts ih =>
    simp only [List.length_cons] at hfuel
    obtain ⟨f, rfl⟩ : ∃ f, fuel = f + 1 := ⟨fuel - 1, by omega⟩
    have ht := hlex t (List.mem_cons_self t ts)
    have hts : ∀ u ∈ ts, Lexeme u := fun u hu => hlex u (List.mem_cons_of_mem t hu)
    rw [List.map_cons, joinWithSpace_cons]
    have hrest : ∀ d, (if ts.map Token.value = [] then []
        else ' ' :: joinWithSpace (ts.map Token.value)).head? = some d → d = ' ' := by
      intro d hd
      split at hd
      · simp at hd
      · simp only [List.head?_cons, Option.some.injEq] at hd
        exact hd.symm
    have hstep := getNextToken_lexeme t _ ht hrest
    rw [mainLoop_succ, hstep, if_pos ht.type_ne_eoi]
    simp only []
    have hdrop := mainLoop_drop (t.value ++ (if ts.map Token.value = [] then []
        else ' ' :: joinWithSpace (ts.map Token.value))) t.value.length f 0
    rw [Nat.add_zero, List.drop_left] at hdrop
    rw [hdrop]
    rcases ts with _ | ⟨u, us⟩
    · obtain ⟨g, rfl⟩ : ∃ g, f = g + 1 := ⟨f - 1, by simp at hfuel; omega⟩
      simp only [List.map_nil, if_true, mainLoop_nil]
      rfl
    · have hih := ih hts f (by simp only [List.length_cons] at hfuel ⊢; omega)
      rw [if_neg (by simp)]
      have hsp := mainLoop_cons_space (joinWithSpace ((u :: us).map Token.value)) f
      rw [hih] at hsp
      rcases hm : mainLoop (' ' :: joinWithSpace ((u :: us).map Token.value)) f 0 with
        _ | ⟨toks, fin⟩
      · rw [hm] at hsp; simp at hsp
      · rw [hm] at hsp
        simp only [Option.map_some', Option.some.injEq] at hsp
        simp only [Option.map_some']
        rw [hsp]
        rfl

theorem tokenTexts_append_eoi (lexemes : List Token)
    (h : ∀ t ∈ lexemes, t.type ≠ END_OF_INPUT) :
    tokenTexts (lexemes ++ [⟨END_OF_INPUT, []⟩]) = lexemes.map Token.value := by
  unfold tokenTexts
  rw [List.filter_append, List.filter_eq_self.mpr (fun t ht => by simpa using h t ht)]
  simp

/-! ## The calls of a fresh lexer -/

theorem positionAfter_succ (input : List Char) (n : Nat) :
    positionAfter input (n + 1) = (getNextToken input (positionAfter input n)).2 := rfl

theorem positionAfter_mono (input : List Char) (n m : Nat) (h : n ≤ m) :
    positionAfter input n ≤ positionAfter input m := by
  induction m, h using Nat.le_induction with
  | base => exact le_refl _
  | succ m _ ih => exact le_trans ih (getNextToken_position_ge input _)

/-- As long as no call has returned `END_OF_INPUT`, every call has consumed at
least one character. -/
theorem positionAfter_ge_of_no_eoi (input : List Char) (n : Nat)
    (h : ∀ m, m < n → (tokenOfCall input m).type ≠ END_OF_INPUT) :
    n ≤ positionAfter input n := by
  induction n with
  | zero => exact Nat.zero_le _
  | succ n ih =>
    have h1 := ih (fun m hm => h m (by omega))
    have h2 := getNextToken_position_gt input (positionAfter input n) (h n (Nat.lt_succ_self n))
    rw [positionAfter_succ]
    omega

/-- Some call among the first `input.length + 1` returns `END_OF_INPUT`. -/
theorem exists_eoi_call (input : List Char) :
    ∃ n, n ≤ input.length ∧ (tokenOfCall input n).type = END_OF_INPUT := by
  by_contra hcon
  have hall : ∀ m, m < input.length + 1 → (tokenOfCall input m).type ≠ END_OF_INPUT :=
    fun m hm he => hcon ⟨m, by omega, he⟩
  have h1 := positionAfter_ge_of_no_eoi input (input.length + 1) hall
  have h2 := positionAfter_le_length input (input.length + 1)
  omega

/-- When the last character is whitespace or recognised, a call that returns
`END_OF_INPUT` has only whitespace in front of it and leaves the cursor at the
end of the buffer. -/
theorem getNextToken_eoi_of_last (input : List Char) (p : Nat) (hle : p ≤ input.length)
    (hlast : ∀ c, input.getLast? = some c → isspace c = true ∨ unrecognized c = false)
    (he : (getNextToken input p).1.type = END_OF_INPUT) :
    AllBetween isspace input p input.length ∧ (getNextToken input p).2 = input.length := by
  rcases (getNextToken_eoi_iff input p).mp he with h | ⟨q, c, h, hu, hl⟩
  · exact ⟨h, by rw [getNextToken_of_allspace input p hle h]⟩
  · rcases hlast c (getLast?_eq_of_succ_eq_length input q c h.2.2.1 hl) with h5 | h5
    · rw [h.2.2.2] at h5; exact absurd h5 (by simp)
    · rw [hu] at h5; exact absurd h5 (by simp)

/-- The final cursor of a driver run that starts where call number `n` of a fresh
lexer starts is the cursor after the first later call that returns
`END_OF_INPUT`. -/
theorem mainLoop_final_eq_positionAfter (input : List Char) (fuel n : Nat)
    (tokens : List Token) (final : Nat)
    (hrun : mainLoop input fuel (positionAfter input n) = some (tokens, final)) :
    ∃ m, (tokenOfCall input m).type = END_OF_INPUT ∧
      final = positionAfter input (m + 1) := by
  induction fuel generalizing n tokens final with
  | zero => simp [mainLoop] at hrun
  | succ fuel ih =>
    rw [mainLoop_succ] at hrun
    by_cases hne : (getNextToken input (positionAfter input n)).1.type ≠ END_OF_INPUT
    · rw [if_pos hne] at hrun
      rcases hm : mainLoop input fuel (getNextToken input (positionAfter input n)).2 with
        _ | ⟨ts, fin⟩
      · rw [hm] at hrun; exact absurd hrun (by simp)
      · rw [hm] at hrun
        simp only [Option.some.injEq, Prod.mk.injEq] at hrun
        obtain ⟨_, rfl⟩ := hrun
        exact ih (n + 1) ts fin hm
    · rw [if_neg hne] at hrun
      have he : (getNextToken input (positionAfter input n)).1.type = END_OF_INPUT := by
        by_contra hcon; exact hne hcon
      simp only [Option.some.injEq, Prod.mk.injEq] at hrun
      obtain ⟨_, rfl⟩ := hrun
      exact ⟨n, he, rfl⟩

/-- Every non-whitespace character before the cursor at which a call returned
`END_OF_INPUT` lies between the cursors before and after exactly one call, and
that call returns a token other than `END_OF_INPUT`. -/
theorem consumed_by_one_call (input : List Char) (N : Nat)
    (i : Nat) (c : Char) (hc : input[i]? = some c) (hs : isspace c = false)
    (hi : i < positionAfter input (N + 1)) :
    ∃ n, ((tokenOfCall input n).type ≠ END_OF_INPUT ∧ positionAfter input n ≤ i ∧
        i < positionAfter input (n + 1)) ∧
      ∀ m, positionAfter input m ≤ i ∧ i < positionAfter input (m + 1) → m = n := by
  have hex : ∃ n, i < positionAfter input (n + 1) := ⟨N, hi⟩
  classical
  have hfind := Nat.find_spec hex
  have hmin := fun m (hm : m < Nat.find hex) => Nat.find_min hex hm
  have hlow : positionAfter input (Nat.find hex) ≤ i := by
    rcases hn0 : Nat.find hex with _ | k
    · exact Nat.zero_le _
    · have := hmin k (by omega)
      omega
  refine ⟨Nat.find hex, ⟨?_, hlow, hfind⟩, ?_⟩
  · intro he
    obtain ⟨d, hd1, hd2⟩ := getNextToken_eoi_spaces input _
      (positionAfter_le_length input (Nat.find hex)) he i hlow hfind
    rw [hc] at hd1
    cases hd1
    rw [hs] at hd2
    exact absurd hd2 (by simp)
  · rintro m ⟨hm1, hm2⟩
    rcases Nat.lt_trichotomy m (Nat.find hex) with hlt | heq | hgt
    · have := positionAfter_mono input (m + 1) (Nat.find hex) (by omega)
      omega
    · exact heq
    · have := positionAfter_mono input (Nat.find hex + 1) m (by omega)
      omega

/-! ## Properties of the specification, continued -/

/-- C11: a call that returns a token other than `END_OF_INPUT` moves the cursor
strictly forward.  It has skipped whitespace up to a first non-whitespace
character at `q`, the new cursor is beyond `q` and within the buffer, and when
the token is an `IDENTIFIER`, `KEYWORD`, `INTEGER_LITERAL`, `FLOAT_LITERAL`,
`OPERATOR`, `PUNCTUATION`, or an `UNKNOWN` with non-empty text, its text is the
range of the buffer from `q` to the new cursor. -/
theorem C11_cursor_advances_and_text_is_range (input : List Char) (p : Nat)
    (hne : (getNextToken input p).1.type ≠ END_OF_INPUT) :
    p < (getNextToken input p).2 ∧
    ∃ q c, FirstNonSpace input p q c ∧ q < (getNextToken input p).2 ∧
      (getNextToken input p).2 ≤ input.length ∧
      ((getNextToken input p).1.type = IDENTIFIER ∨
        (getNextToken input p).1.type = KEYWORD ∨
        (getNextToken input p).1.type = INTEGER_LITERAL ∨
        (getNextToken input p).1.type = FLOAT_LITERAL ∨
        (getNextToken input p).1.type = OPERATOR ∨
        (getNextToken input p).1.type = PUNCTUATION ∨
        ((getNextToken input p).1.type = UNKNOWN ∧ (getNextToken input p).1.value ≠ []) →
        (getNextToken input p).1.value =
          substr input q ((getNextToken input p).2 - q)) := by
  refine ⟨getNextToken_position_gt input p hne, ?_⟩
  obtain ⟨q, c, h, h1, h2⟩ := getNextToken_of_ne_eoi input p hne
  refine ⟨q, c, h, h1, h2, ?_⟩
  intro hkind
  by_cases hq : c = quote
  · exfalso
    subst hq
    rw [getNextToken_quote input p q h] at hkind
    rcases readCharLiteral_kind input q with hk | hk
    · rw [hk] at hkind; simp at hkind
    · rw [hk] at hkind; simp at hkind
  · exact (getNextToken_text input p q c h hq hne).1

/-- C11 at the input ` ab;`, read from cursor 0: the cursor moves to 3. -/
theorem C11_cursor_advances_and_text_is_range_witness :
    (getNextToken " ab;".toList 0).1.type ≠ END_OF_INPUT ∧
      0 < (getNextToken " ab;".toList 0).2 :=
  ⟨by simp [getNextToken, readIdentifierOrKeyword, advanceWhile, substr, keywords, isspace,
      isalpha, isdigit, isalnum],
    (C11_cursor_advances_and_text_is_range " ab;".toList 0
      (by simp [getNextToken, readIdentifierOrKeyword, advanceWhile, substr, keywords, isspace,
        isalpha, isdigit, isalnum])).1⟩

/-- C12: on an input that holds only whitespace characters, the empty input
included, the driver prints exactly one token, `END_OF_INPUT` with empty text,
on its first iteration, and exits with the cursor at the end of the buffer. -/
theorem C12_whitespace_only (input : List Char) (hws : ∀ c ∈ input, isspace c = true)
    (k : Nat) : mainLoop input (k + 1) 0 = some ([⟨END_OF_INPUT, []⟩], input.length) := by
  have hall : AllBetween isspace input 0 input.length := by
    intro i _ hi
    exact ⟨input[i], List.getElem?_eq_getElem hi, hws _ (List.getElem_mem hi)⟩
  rw [mainLoop_succ, getNextToken_of_allspace input 0 (Nat.zero_le _) hall]
  simp

/-- C12 at the input made of a space, a tab and a newline. -/
theorem C12_whitespace_only_witness :
    (∀ c ∈ [' ', '\t', '\n'], isspace c = true) ∧
      mainLoop [' ', '\t', '\n'] (3 + 1) 0 = some ([⟨END_OF_INPUT, []⟩], 3) :=
  ⟨by decide, C12_whitespace_only [' ', '\t', '\n'] (by decide) 3⟩

/-- C13: when the first non-whitespace character `c` at or after the cursor, at
`q`, is one of `{ } ; ,` the call returns `PUNCTUATION` with the one-character
text `c`, and when it is one of `+ - * / % = & | ! < >` it returns `OPERATOR`
with the one-character text `c`; the new cursor is `q + 1` in both cases.  Every
`OPERATOR` and `PUNCTUATION` token, from any input and cursor, has a text of
length 1, and the input `==` gives two `OPERATOR "="` tokens. -/
theorem C13_punctuation_and_operator (input : List Char) (p q : Nat) (c : Char)
    (h : FirstNonSpace input p q c) :
    (c ∈ ['{', '}', ';', ','] → getNextToken input p = (⟨PUNCTUATION, [c]⟩, q + 1)) ∧
    (c ∈ ['+', '-', '*', '/', '%', '=', '&', '|', '!', '<', '>'] →
      getNextToken input p = (⟨OPERATOR, [c]⟩, q + 1)) ∧
    (∀ (input2 : List Char) (p2 : Nat),
      (getNextToken input2 p2).1.type = OPERATOR ∨
        (getNextToken input2 p2).1.type = PUNCTUATION →
      (getNextToken input2 p2).1.value.length = 1) ∧
    mainLoop "==".toList 3 0 =
      some ([⟨OPERATOR, "=".toList⟩, ⟨OPERATOR, "=".toList⟩, ⟨END_OF_INPUT, []⟩], 2) := by
  refine ⟨?_, ?_, ?_, ?_⟩
  · intro hc
    exact getNextToken_punctuation input p q c h
      ((isPunctuation_iff c).mpr (by simpa using hc))
  · intro hc
    exact getNextToken_operator input p q c h ((isOperator_iff c).mpr (by simpa using hc))
  · intro input2 p2 hk
    obtain ⟨q2, c2, _, _, hv, _⟩ := getNextToken_punctuation_or_operator input2 p2 hk
    rw [hv]; rfl
  · simp [mainLoop, getNextToken, isspace, isalpha, isdigit, isPunctuation, isOperator, quote]

/-- C13 at the input ` ;x`, read from cursor 0. -/
theorem C13_punctuation_and_operator_witness :
    FirstNonSpace " ;x".toList 0 1 ';' ∧
      getNextToken " ;x".toList 0 = (⟨PUNCTUATION, [';']⟩, 1 + 1) :=
  ⟨⟨by decide, fun i h1 h2 => ⟨' ', by
      have hi : i = 0 := by omega
      subst hi; rfl, by decide⟩, rfl, by decide⟩,
    (C13_punctuation_and_operator " ;x".toList 0 1 ';'
      ⟨by decide, fun i h1 h2 => ⟨' ', by
        have hi : i = 0 := by omega
        subst hi; rfl, by decide⟩, rfl, by decide⟩).1 (by decide)⟩

/-- C14, as stated, fails: on the input `@` the driver prints `END_OF_INPUT` and
exits with the cursor at 0, before the `@`; the length of the buffer is 1. -/
theorem C14_final_cursor_counterexample :
    mainLoop ['@'] 2 0 = some ([⟨END_OF_INPUT, []⟩], 0) ∧ (0 : Nat) ≠ ['@'].length := by
  refine ⟨?_, by decide⟩
  simp [mainLoop, getNextToken, isspace, isalpha, isdigit, quote, isPunctuation, isOperator]

/-- C14, amended: for every input the driver run from cursor 0 exits with the
cursor at the length of the buffer, or one short of it, on an unrecognized last
character that no token consumes; every non-whitespace character before the
final cursor lies between the cursors before and after exactly one call of
`getNextToken`, which returns a token other than `END_OF_INPUT`. -/
theorem C14_final_cursor_amended (input : List Char) :
    ∃ tokens final, mainLoop input (input.length + 1) 0 = some (tokens, final) ∧
      (final = input.length ∨
        (final + 1 = input.length ∧
          ∃ c, input[final]? = some c ∧ isspace c = false ∧ unrecognized c = true)) ∧
      ∀ i c, i < final → input[i]? = some c → isspace c = false →
        ∃ n, ((tokenOfCall input n).type ≠ END_OF_INPUT ∧ positionAfter input n ≤ i ∧
            i < positionAfter input (n + 1)) ∧
          ∀ m, positionAfter input m ≤ i ∧ i < positionAfter input (m + 1) → m = n := by
  obtain ⟨tokens, final, hrun, _⟩ :=
    mainLoop_exits input (input.length + 1) 0 (Nat.zero_le _) (by omega)
  refine ⟨tokens, final, hrun, mainLoop_final input _ 0 (Nat.zero_le _) tokens final hrun, ?_⟩
  obtain ⟨N, _, hN⟩ := mainLoop_final_eq_positionAfter input _ 0 tokens final hrun
  intro i c hi hc hs
  exact consumed_by_one_call input N i c hc hs (by omega)

/-- C15: a call returns `END_OF_INPUT` exactly when the characters from the
cursor to the end of the buffer are all whitespace, or are whitespace followed
by one last character that is unrecognized; it never returns `END_OF_INPUT`
while an alphabetic character, a digit, a single quote, a punctuation or an
operator character is left at or after the cursor.  On `  ` and on ` @` the
call returns `END_OF_INPUT`, on ` @;` it does not. -/
theorem C15_end_of_input_condition (input : List Char) (p : Nat) :
    ((getNextToken input p).1.type = END_OF_INPUT ↔
      AllBetween isspace input p input.length ∨
        ∃ q c, FirstNonSpace input p q c ∧ unrecognized c = true ∧
          q + 1 = input.length) ∧
    (∀ i c, p ≤ i → input[i]? = some c →
      (isalpha c = true ∨ isdigit c = true ∨ c = quote ∨ isPunctuation c = true ∨
        isOperator c = true) →
      (getNextToken input p).1.type ≠ END_OF_INPUT) ∧
    (getNextToken "  ".toList 0).1 = ⟨END_OF_INPUT, []⟩ ∧
    (getNextToken " @".toList 0).1 = ⟨END_OF_INPUT, []⟩ ∧
    (getNextToken " @;".toList 0).1 = ⟨UNKNOWN, ['@']⟩ := by
  refine ⟨getNextToken_eoi_iff input p, ?_, ?_, ?_, ?_⟩
  · intro i c hpi hc hrec he
    have hrec2 := (unrecognized_eq_false_iff c).mpr hrec
    have hi : i < input.length := (List.getElem?_eq_some_iff.mp hc).1
    rcases (getNextToken_eoi_iff input p).mp he with h | ⟨q, d, h, hu, hl⟩
    · obtain ⟨e, he1, he2⟩ := h i hpi hi
      rw [hc] at he1
      cases he1
      rw [unrecognized_of_isspace he2] at hrec2
      exact absurd hrec2 (by simp)
    · by_cases hiq : i < q
      · obtain ⟨e, he1, he2⟩ := h.2.1 i hpi hiq
        rw [hc] at he1
        cases he1
        rw [unrecognized_of_isspace he2] at hrec2
        exact absurd hrec2 (by simp)
      · have hiq2 : i = q := by omega
        subst hiq2
        rw [h.2.2.1] at hc
        cases hc
        rw [hu] at hrec2
        exact absurd hrec2 (by simp)
  · simp [getNextToken, isspace]
  · simp [getNextToken, isspace, isalpha, isdigit, quote, isPunctuation, isOperator]
  · simp [getNextToken, isspace, isalpha, isdigit, quote, isPunctuation, isOperator]

/-- C16: when the first non-whitespace character at or after the cursor is
alphabetic, at `q`, the token is an `IDENTIFIER` or a `KEYWORD` whose text is the
maximal run of alphanumeric characters from `q`: the text is the range from `q`
to the new cursor, it is not empty, it starts with the alphabetic character, it
holds only alphanumeric characters, and the character at the new cursor, if any,
is not alphanumeric.  An underscore ends the word: `ab_c` gives `IDENTIFIER "ab"`,
`UNKNOWN "_"`, `IDENTIFIER "c"`. -/
theorem C16_identifier_maximal_run (input : List Char) (p q : Nat) (c : Char)
    (h : FirstNonSpace input p q c) (ha : isalpha c = true) :
    ((getNextToken input p).1.type = IDENTIFIER ∨ (getNextToken input p).1.type = KEYWORD) ∧
    (getNextToken input p).1.value = substr input q ((getNextToken input p).2 - q) ∧
    MaximalRun isalnum input q (getNextToken input p).2 ∧
    (∀ e, MaximalRun isalnum input q e → e = (getNextToken input p).2) ∧
    (getNextToken input p).1.value ≠ [] ∧
    (getNextToken input p).1.value.head? = some c ∧
    (∀ a ∈ (getNextToken input p).1.value, isalnum a = true) ∧
    (∀ d, input[(getNextToken input p).2]? = some d → isalnum d = false) ∧
    mainLoop "ab_c".toList 5 0 =
      some ([⟨IDENTIFIER, "ab".toList⟩, ⟨UNKNOWN, "_".toList⟩, ⟨IDENTIFIER, "c".toList⟩,
        ⟨END_OF_INPUT, []⟩], 4) := by
  have hlt := h.lt_length
  have hgt := advanceWhile_gt isalnum input q c h.2.2.1 (isalnum_of_isalpha ha)
  have hmax := advanceWhile_maximal isalnum input q (Nat.le_of_lt hlt)
  have hhead := substr_head input q (advanceWhile isalnum input q - q) c h.2.2.1 (by omega)
  rw [getNextToken_alpha input p q c h ha, readIdentifierOrKeyword_eq]
  refine ⟨?_, rfl, hmax, fun e he => MaximalRun.unique he hmax, ?_, hhead, ?_, hmax.2.2.2, ?_⟩
  · simp only []
    split
    · exact Or.inr rfl
    · exact Or.inl rfl
  · intro hnil
    simp only [] at hnil
    rw [hnil] at hhead
    exact absurd hhead (by simp)
  · intro a hmem
    obtain ⟨i, h1, h2, h3⟩ := mem_substr hmem
    obtain ⟨d, hd1, hd2⟩ := hmax.2.2.1 i h1 (by omega)
    rw [h3] at hd1
    cases hd1
    exact hd2
  · simp [mainLoop, getNextToken, readIdentifierOrKeyword, advanceWhile, substr, keywords,
      isspace, isalpha, isdigit, isalnum, isPunctuation, isOperator, quote]

/-- C16 at the input ` x1+`, read from cursor 0. -/
theorem C16_identifier_maximal_run_witness :
    FirstNonSpace " x1+".toList 0 1 'x' ∧ isalpha 'x' = true ∧
      (getNextToken " x1+".toList 0).1.value.head? = some 'x' :=
  ⟨⟨by decide, fun i h1 h2 => ⟨' ', by
      have hi : i = 0 := by omega
      subst hi; rfl, by decide⟩, rfl, by decide⟩, by decide,
    (C16_identifier_maximal_run " x1+".toList 0 1 'x'
      ⟨by decide, fun i h1 h2 => ⟨' ', by
        have hi : i = 0 := by omega
        subst hi; rfl, by decide⟩, rfl, by decide⟩ (by decide)).2.2.2.2.2.1⟩

/-- C17: one call from the cursor `p` of the buffer returns the token that one
call from cursor 0 of the unread suffix returns, and the new cursor is `p` plus
the cursor reached on the suffix; this holds for every cursor, inside the buffer
or beyond it.  The same holds for the whole driver run, so two runs that start
with the same unread suffix print the same tokens. -/
theorem C17_scanning_is_local (input : List Char) (p : Nat) :
    (getNextToken input p).1 = (getNextToken (input.drop p) 0).1 ∧
    (getNextToken input p).2 = p + (getNextToken (input.drop p) 0).2 ∧
    (∀ fuel, mainLoop input fuel p =
      (mainLoop (input.drop p) fuel 0).map (fun r => (r.1, p + r.2))) ∧
    (∀ (input2 : List Char) (p2 fuel : Nat), input2.drop p2 = input.drop p →
      (mainLoop input2 fuel p2).map Prod.fst = (mainLoop input fuel p).map Prod.fst) := by
  have h := getNextToken_drop input p 0
  rw [Nat.add_zero] at h
  refine ⟨by rw [h], by rw [h], fun fuel => mainLoop_drop input p fuel 0, ?_⟩
  intro input2 p2 fuel heq
  have h1 := mainLoop_drop input p fuel 0
  have h2 := mainLoop_drop input2 p2 fuel 0
  rw [Nat.add_zero] at h1 h2
  rw [h1, h2, heq]
  simp [Function.comp_def]

/-- C18: for every input that holds no single quote and whose last character, if
any, is whitespace, alphanumeric, a punctuation character or an operator
character, the driver run from cursor 0 exits with the cursor at the length of
the buffer, and the texts of the printed tokens other than `END_OF_INPUT`,
concatenated in order, are the input with its whitespace removed. -/
theorem C18_clean_input_is_covered (input : List Char) (hq : quote ∉ input)
    (hlast : ∀ c, input.getLast? = some c →
      isspace c = true ∨ isalnum c = true ∨ isPunctuation c = true ∨ isOperator c = true) :
    ∃ tokens, mainLoop input (input.length + 1) 0 = some (tokens, input.length) ∧
      concatTexts tokens = removeWhitespace input := by
  obtain ⟨tokens, final, hrun, _⟩ :=
    mainLoop_exits input (input.length + 1) 0 (Nat.zero_le _) (by omega)
  have hlast2 : ∀ c, input.getLast? = some c →
      isspace c = true ∨ unrecognized c = false := by
    intro c hc
    rcases hlast c hc with h1 | h1 | h1 | h1
    · exact Or.inl h1
    · right
      rw [unrecognized_eq_false_iff]
      simp only [isalnum, Bool.or_eq_true] at h1
      rcases h1 with h1 | h1
      · exact Or.inl h1
      · exact Or.inr (Or.inl h1)
    · right; rw [unrecognized_eq_false_iff]; exact Or.inr (Or.inr (Or.inr (Or.inl h1)))
    · right; rw [unrecognized_eq_false_iff]; exact Or.inr (Or.inr (Or.inr (Or.inr h1)))
  obtain ⟨h1, h2⟩ := mainLoop_covers input (fun c hc hcq => hq (hcq ▸ hc)) hlast2 _ 0
    (Nat.zero_le _) tokens final hrun
  exact ⟨tokens, by rw [hrun, h2], h1⟩

/-- C18 at the input `x = 3.5 ;`. -/
theorem C18_clean_input_is_covered_witness :
    quote ∉ "x = 3.5 ;".toList ∧
    (∀ c, "x = 3.5 ;".toList.getLast? = some c →
      isspace c = true ∨ isalnum c = true ∨ isPunctuation c = true ∨
        isOperator c = true) ∧
    ∃ tokens, mainLoop "x = 3.5 ;".toList (9 + 1) 0 = some (tokens, 9) ∧
      concatTexts tokens = removeWhitespace "x = 3.5 ;".toList :=
  ⟨by decide, by intro c hc; cases hc; right; right; left; decide,
    C18_clean_input_is_covered "x = 3.5 ;".toList (by decide)
      (by intro c hc; cases hc; right; right; left; decide)⟩

/-- C19: when a driver run prints no `CHAR_LITERAL` and no `UNKNOWN` token, the
driver run on the texts of its tokens other than `END_OF_INPUT`, joined with a
single space between consecutive texts, prints the same tokens, with the same
kinds and the same texts. -/
theorem C19_rescan_round_trip (input : List Char) (tokens : List Token) (final : Nat)
    (hrun : mainLoop input (input.length + 1) 0 = some (tokens, final))
    (hkinds : ∀ t ∈ tokens, t.type ≠ CHAR_LITERAL ∧ t.type ≠ UNKNOWN) :
    ∃ final2, mainLoop (joinWithSpace (tokenTexts tokens))
      ((joinWithSpace (tokenTexts tokens)).length + 1) 0 = some (tokens, final2) := by
  obtain ⟨toks, fin, hrun2, _, hlast, hdrop, _⟩ :=
    mainLoop_exits input (input.length + 1) 0 (Nat.zero_le _) (by omega)
  rw [hrun] at hrun2
  simp only [Option.some.injEq, Prod.mk.injEq] at hrun2
  obtain ⟨rfl, rfl⟩ := hrun2
  have hsplit : tokens.dropLast ++ [⟨END_OF_INPUT, []⟩] = tokens :=
    List.dropLast_append_getLast? _ (by rw [hlast]; rfl)
  have hlex : ∀ t ∈ tokens.dropLast, Lexeme t := by
    intro t ht
    have hmem : t ∈ tokens := List.dropLast_subset tokens ht
    obtain ⟨p2, rfl⟩ := mainLoop_mem input _ 0 tokens final hrun t hmem
    exact getNextToken_is_lexeme input p2 (hdrop _ ht) (hkinds _ hmem).1 (hkinds _ hmem).2
  have htexts : tokenTexts tokens = tokens.dropLast.map Token.value := by
    conv_lhs => rw [← hsplit]
    exact tokenTexts_append_eoi tokens.dropLast hdrop
  have hscan := mainLoop_joinWithSpace tokens.dropLast hlex (tokens.dropLast.length + 1)
    (Nat.lt_succ_self _)
  rw [hsplit, ← htexts] at hscan
  obtain ⟨toks2, fin2, hrun3, _⟩ :=
    mainLoop_exits (joinWithSpace (tokenTexts tokens))
      ((joinWithSpace (tokenTexts tokens)).length + 1) 0 (Nat.zero_le _) (by omega)
  rcases hm : mainLoop (joinWithSpace (tokenTexts tokens)) (tokens.dropLast.length + 1) 0 with
    _ | ⟨toks3, fin3⟩
  · rw [hm] at hscan; simp at hscan
  · rw [hm] at hscan
    simp only [Option.map_some', Option.some.injEq] at hscan
    subst hscan
    have e1 := mainLoop_mono _ _ ((joinWithSpace (tokenTexts toks3)).length + 1) 0 _ hm
    have e2 := mainLoop_mono _ _ (toks3.dropLast.length + 1) 0 _ hrun3
    rw [Nat.add_comm] at e2
    rw [e1] at e2
    simp only [Option.some.injEq, Prod.mk.injEq] at e2
    exact ⟨fin3, by rw [hrun3, ← e2.1, ← e2.2]⟩

/-- C19 at the input `x=1`: the joined text is `x = 1`. -/
theorem C19_rescan_round_trip_witness :
    mainLoop ['x', '=', '1'] (3 + 1) 0 =
      some ([⟨IDENTIFIER, ['x']⟩, ⟨OPERATOR, ['=']⟩, ⟨INTEGER_LITERAL, ['1']⟩,
        ⟨END_OF_INPUT, []⟩], 3) ∧
    (∀ t ∈ [(⟨IDENTIFIER, ['x']⟩ : Token), ⟨OPERATOR, ['=']⟩, ⟨INTEGER_LITERAL, ['1']⟩,
        ⟨END_OF_INPUT, []⟩],
      t.type ≠ CHAR_LITERAL ∧ t.type ≠ UNKNOWN) ∧
    joinWithSpace (tokenTexts [⟨IDENTIFIER, ['x']⟩, ⟨OPERATOR, ['=']⟩,
      ⟨INTEGER_LITERAL, ['1']⟩, ⟨END_OF_INPUT, []⟩]) = ['x', ' ', '=', ' ', '1'] ∧
    ∃ final2, mainLoop
      (joinWithSpace (tokenTexts [⟨IDENTIFIER, ['x']⟩, ⟨OPERATOR, ['=']⟩,
        ⟨INTEGER_LITERAL, ['1']⟩, ⟨END_OF_INPUT, []⟩]))
      ((joinWithSpace (tokenTexts [⟨IDENTIFIER, ['x']⟩, ⟨OPERATOR, ['=']⟩,
        ⟨INTEGER_LITERAL, ['1']⟩, ⟨END_OF_INPUT, []⟩])).length + 1) 0 =
      some ([⟨IDENTIFIER, ['x']⟩, ⟨OPERATOR, ['=']⟩, ⟨INTEGER_LITERAL, ['1']⟩,
        ⟨END_OF_INPUT, []⟩], final2) :=
  ⟨by simp [mainLoop, getNextToken, readIdentifierOrKeyword, readNumberLiteral, advanceWhile,
      substr, keywords, isspace, isalpha, isdigit, isalnum, isPunctuation, isOperator, quote],
    by decide, by decide,
    C19_rescan_round_trip ['x', '=', '1']
      [⟨IDENTIFIER, ['x']⟩, ⟨OPERATOR, ['=']⟩, ⟨INTEGER_LITERAL, ['1']⟩, ⟨END_OF_INPUT, []⟩] 3
      (by simp [mainLoop, getNextToken, readIdentifierOrKeyword, readNumberLiteral,
        advanceWhile, substr, keywords, isspace, isalpha, isdigit, isalnum, isPunctuation,
        isOperator, quote])
      (by decide)⟩

end CLite
